import Mathlib

/-!
Verification development for the rust-ime-fst-engine repository: a shallow
embedding of the byte-level n-gram artifact decoders (`suggest_hybrid.rs`),
the artifact validator (`validate_bigram.rs`), the canonical vocabulary maps
(`lib.rs`, `build_bigram.rs`), the user-history model (`user_history.rs`),
the weight quantizer (`build_bigram.rs` / `build_trigram.rs`) and the trigram
cache builder (`build_trigram.rs`), together with theorems settling the
specification claims about them.

Machine integers are modelled as `Nat` (byte buffers are lists of `Nat`,
each byte < 256 by construction on the write side; reads combine four or two
bytes exactly as `u32::from_le_bytes` / `u16::from_le_bytes` do).  A Rust
slice-index panic is modelled as `Except.error ()`: a function that can
panic returns `Except Unit α`, and `Except.error ()` is the panic outcome.
Floating-point score arithmetic (`f64`) is modelled over `ℝ`, with the final
`as u16` cast of a value already clamped into `[0, 65535]` modelled as
`Nat.floor`.
-/

/-! ### Byte-buffer primitives

`byteAt` models `data[i]` on a Rust slice: out of bounds is a panic.
`readU32` / `readU16` model `u32::from_le_bytes` / `u16::from_le_bytes`
applied to consecutive panicking reads.  The `D` variants model reads that
the surrounding code has already bounds-checked (used only under such
guards, where the default can never be hit). -/

def byteAt (data : List Nat) (i : Nat) : Except Unit Nat :=
  match data[i]? with
  | some b => Except.ok b
  | none => Except.error ()

def readU32 (data : List Nat) (i : Nat) : Except Unit Nat := do
  let b0 ← byteAt data i
  let b1 ← byteAt data (i + 1)
  let b2 ← byteAt data (i + 2)
  let b3 ← byteAt data (i + 3)
  Except.ok (b0 + 256 * (b1 + 256 * (b2 + 256 * b3)))

def readU16 (data : List Nat) (i : Nat) : Except Unit Nat := do
  let b0 ← byteAt data i
  let b1 ← byteAt data (i + 1)
  Except.ok (b0 + 256 * b1)

def byteD (data : List Nat) (i : Nat) : Nat := data.getD i 0

def readU32D (data : List Nat) (i : Nat) : Nat :=
  byteD data i + 256 * (byteD data (i + 1) + 256 * (byteD data (i + 2) + 256 * byteD data (i + 3)))

def readU16D (data : List Nat) (i : Nat) : Nat :=
  byteD data i + 256 * byteD data (i + 1)

/-- Little-endian encoding of a `u16` value, as written by `to_le_bytes`. -/
def le16 (n : Nat) : List Nat := [n % 256, n / 256 % 256]

/-- Little-endian encoding of a `u32` value, as written by `to_le_bytes`. -/
def le32 (n : Nat) : List Nat :=
  [n % 256, n / 256 % 256, n / 65536 % 256, n / 16777216 % 256]

/-! ### `suggest_hybrid.rs`: gating -/

/-- The fixed function-word list `boost_words` of `apply_gating`. -/
def boostWords : List String :=
  ["to", "for", "are", "is", "of", "the", "a", "in", "on", "that"]

/-- One step of the `drain(..)` loop of `apply_gating`: push the entry onto
`boosted` if its word is a function word, else onto `others`. -/
def gatingStep (acc : List (String × Nat) × List (String × Nat)) (e : String × Nat) :
    List (String × Nat) × List (String × Nat) :=
  if boostWords.contains e.1 then (acc.1 ++ [e], acc.2) else (acc.1, acc.2 ++ [e])

/-- `apply_gating` from `suggest_hybrid.rs`: drain the suggestion vector into
`boosted` and `others`, then put `boosted` first. -/
def applyGating (suggestions : List (String × Nat)) : List (String × Nat) :=
  let acc := suggestions.foldl gatingStep ([], [])
  acc.1 ++ acc.2

/-! ### `suggest_hybrid.rs`: trigram and bigram lookup -/

/-- Resolution of one decoded edge record against the caller-supplied
vocabulary: `vocab.get(next_id)` keeps the record (as a word), a miss drops
it. -/
def vocabResolve (vocab : List String) (r : Nat × Nat) : Option (String × Nat) :=
  (vocab[r.1]?).map (fun s => (s, r.2))

/-- The edge-reading loop of `lookup_trigram`: reads `n` 8-byte edge records
starting at byte `start`, pushing `(vocab[next_id], weight)` when `next_id`
is a valid vocabulary index.  Reads are unguarded, exactly as in the source:
a record beyond the end of the buffer is a panic. -/
def trigramEdgeLoop (data : List Nat) (vocab : List String) (start : Nat) :
    Nat → Except Unit (List (String × Nat))
  | 0 => Except.ok []
  | n + 1 => do
    let nextId ← readU32 data start
    let weight ← readU16 data (start + 4)
    let rest ← trigramEdgeLoop data vocab (start + 8) n
    match vocab[nextId]? with
    | some w => Except.ok ((w, weight) :: rest)
    | none => Except.ok rest

/-- Pure decoding of `n` consecutive 8-byte edge records `(next_id, weight)`
starting at byte `start` (no vocabulary filtering). -/
def readEdgeRecs (data : List Nat) (start : Nat) : Nat → Except Unit (List (Nat × Nat))
  | 0 => Except.ok []
  | n + 1 => do
    let nextId ← readU32 data start
    let weight ← readU16 data (start + 4)
    let rest ← readEdgeRecs data (start + 8) n
    Except.ok ((nextId, weight) :: rest)

/-- The binary-search loop of `lookup_trigram` over the 16-byte pair-index
entries, as structural recursion on a fuel argument.  One loop iteration
shrinks `high - low` by at least one, so with fuel `high - low` the
zero-fuel case coincides with the loop's own exit condition `low ≥ high`
(see `trigramSearch`).  All buffer reads are unguarded, as in the source. -/
def trigramSearchGo (data : List Nat) (w1 w2 : Nat) (vocab : List String) (numPairs : Nat) :
    Nat → Nat → Nat → Except Unit (Option (List (String × Nat)))
  | 0, _, _ => Except.ok none
  | fuel + 1, low, high =>
    if low < high then
      let mid := low + (high - low) / 2
      let entryOffset := 32 + mid * 16
      do
        let mw1 ← readU32 data entryOffset
        let mw2 ← readU32 data (entryOffset + 4)
        if mw1 < w1 ∨ (mw1 = w1 ∧ mw2 < w2) then
          trigramSearchGo data w1 w2 vocab numPairs fuel (mid + 1) high
        else if mw1 = w1 ∧ mw2 = w2 then do
          let edgesStart ← readU32 data (entryOffset + 8)
          let len ← readU16 data (entryOffset + 12)
          let edgesBase := 32 + numPairs * 16
          let res ← trigramEdgeLoop data vocab (edgesBase + edgesStart) len
          Except.ok (some res)
        else
          trigramSearchGo data w1 w2 vocab numPairs fuel low mid
    else
      Except.ok none

/-- The binary-search loop of `lookup_trigram` on the range
`[low, high)`. -/
def trigramSearch (data : List Nat) (w1 w2 : Nat) (vocab : List String)
    (numPairs low high : Nat) : Except Unit (Option (List (String × Nat))) :=
  trigramSearchGo data w1 w2 vocab numPairs (high - low) low high

/-- `lookup_trigram` from `suggest_hybrid.rs`: read `num_pairs` from the
header (bytes 8..11, unguarded), then binary-search the pair table. -/
def lookupTrigram (data : List Nat) (w1 w2 : Nat) (vocab : List String) :
    Except Unit (Option (List (String × Nat))) := do
  let numPairs ← readU32 data 8
  trigramSearch data w1 w2 vocab numPairs 0 numPairs

/-- The edge-reading loop of `lookup_bigram`: unlike the trigram loop it
checks `off + 6 > data.len()` and breaks instead of reading out of bounds,
so it is total.  The reads under the guard are in bounds, modelled with the
defaulted readers. -/
def bigramEdgeLoop (data : List Nat) (vocab : List String) (start : Nat) :
    Nat → List (String × Nat)
  | 0 => []
  | n + 1 =>
    if start + 6 > data.length then []
    else
      let nextId := readU32D data start
      let weight := readU16D data (start + 4)
      let rest := bigramEdgeLoop data vocab (start + 8) n
      match vocab[nextId]? with
      | some w => (w, weight) :: rest
      | none => rest

/-- Pure decoding counterpart of `bigramEdgeLoop`: the `(next_id, weight)`
records actually visited by the loop (with the same early break). -/
def bigramRecs (data : List Nat) (start : Nat) : Nat → List (Nat × Nat)
  | 0 => []
  | n + 1 =>
    if start + 6 > data.length then []
    else (readU32D data start, readU16D data (start + 4)) :: bigramRecs data (start + 8) n

/-- `lookup_bigram` from `suggest_hybrid.rs`.  The header read of
`vocab_size` (bytes 8..11) is unguarded; everything after it is
bounds-checked by the source itself. -/
def lookupBigram (data : List Nat) (wId : Nat) (vocab : List String) :
    Except Unit (Option (List (String × Nat))) := do
  let vocabSize ← readU32 data 8
  let indexOffset := 32 + wId * 8
  if indexOffset + 8 > 32 + vocabSize * 8 then
    Except.ok none
  else if indexOffset + 6 > data.length then
    Except.ok none
  else
    let edgesOffset := readU32D data indexOffset
    let len := readU16D data (indexOffset + 4)
    if len = 0 then
      Except.ok none
    else
      let edgesBase := 32 + vocabSize * 8
      Except.ok (some (bigramEdgeLoop data vocab (edgesBase + edgesOffset) len))

/-! ### `validate_bigram.rs`

The validator's sections 3.2 (coverage stats) and the printing are pure
diagnostics: they cannot panic (every vector index there is guarded) and do
not influence the computed test results or the process exit code, so they
are not carried in the model.  Section 3.1 (the invariant loop) and section
3.3 (the probe loop, whose buffer reads are unguarded) are modelled
faithfully.  `main` ends with `Ok(())` regardless of `all_pass`, so the
process exit code is 0 whenever no read panics; a panic is `.error ()`. -/

/-- The inner edge loop of invariant section 3.1: walk `n` edge records
accumulating `sorted_errors` (a weight larger than its predecessor,
`prev_weight` starting at `u16::MAX`) and `duplicate_errors` (a repeated
`next_id`, tracked in the `seen_ids` set). -/
def edgeCheckLoop (data : List Nat) :
    Nat → Nat → Nat → List Nat → Nat × Nat → Except Unit (Nat × Nat)
  | _, 0, _, _, errs => Except.ok errs
  | start, n + 1, prevWeight, seen, (sortedErrs, dupErrs) => do
    let nextId ← readU32 data start
    let weight ← readU16 data (start + 4)
    let sortedErrs := if weight > prevWeight then sortedErrs + 1 else sortedErrs
    let dupErrs := if seen.contains nextId then dupErrs + 1 else dupErrs
    edgeCheckLoop data (start + 8) n weight (nextId :: seen) (sortedErrs, dupErrs)

/-- The invariant loop of section 3.1 over `prev_id in 0..vocab_size`
(second argument counts the remaining ids, `i` is the current `prev_id`):
reads each index entry, counts out-of-bounds edge ranges as
`offset_errors`, and otherwise checks the edge list.  The index-entry reads
themselves are unguarded in the source and can panic on a short file. -/
def validateIndexLoop (data : List Nat) (edgesBase actualSize : Nat) :
    Nat → Nat → Nat × Nat × Nat → Except Unit (Nat × Nat × Nat)
  | _, 0, errs => Except.ok errs
  | i, r + 1, (offsetErrs, sortedErrs, dupErrs) => do
    let idxOffset := 32 + i * 8
    let offset ← readU32 data idxOffset
    let len ← readU16 data (idxOffset + 4)
    if len = 0 then
      validateIndexLoop data edgesBase actualSize (i + 1) r (offsetErrs, sortedErrs, dupErrs)
    else
      let edgeStart := edgesBase + offset
      let edgeEnd := edgeStart + len * 8
      if edgeEnd > actualSize then
        validateIndexLoop data edgesBase actualSize (i + 1) r (offsetErrs + 1, sortedErrs, dupErrs)
      else do
        let (sortedErrs, dupErrs) ← edgeCheckLoop data edgeStart len 65535 [] (sortedErrs, dupErrs)
        validateIndexLoop data edgesBase actualSize (i + 1) r (offsetErrs, sortedErrs, dupErrs)

/-- The probe word list of section 3.3. -/
def probeList : List String :=
  ["the", "a", "an", "this", "that", "these", "those",
   "i", "you", "we", "they", "he", "she", "it",
   "is", "are", "was", "were", "have", "has", "had", "will", "would", "can", "could",
   "go", "make", "know", "think", "want", "need", "see", "take", "get", "come",
   "what", "where", "when", "why", "how", "who",
   "and", "but", "or", "if", "because", "to", "for", "with", "in", "on"]

/-- The probe section's top-5 read: `min(len, 5)` unguarded `next_id`
reads. -/
def probeEdges (data : List Nat) : Nat → Nat → Except Unit Unit
  | _, 0 => Except.ok ()
  | start, n + 1 => do
    let _ ← readU32 data start
    probeEdges data (start + 8) n

/-- The probe loop of section 3.3: for each probe word present (lowercased)
in the external vocabulary, read its index entry and up to five edges —
all reads unguarded. -/
def probeLoop (data : List Nat) (vocab : List String) (edgesBase : Nat) :
    List String → Except Unit Unit
  | [] => Except.ok ()
  | probe :: rest => do
    let lower := probe.toLower
    match vocab.findIdx? (fun w => w.toLower == lower) with
    | none => probeLoop data vocab edgesBase rest
    | some wordId => do
      let idxOffset := 32 + wordId * 8
      let offset ← readU32 data idxOffset
      let len ← readU16 data (idxOffset + 4)
      if len = 0 then probeLoop data vocab edgesBase rest
      else do
        probeEdges data (edgesBase + offset) (min len 5)
        probeLoop data vocab edgesBase rest

/-- `main` of `validate_bigram.rs`, given the mapped artifact bytes and the
external `en.vocab.txt` contents.  Returns `(all_pass, exit_code)`: the
source prints the verdict but ends with `Ok(())`, so the exit code is `0`
on every run that does not panic. -/
def validateBigramRun (data : List Nat) (vocab : List String) : Except Unit (Bool × Nat) := do
  let magic ← readU32 data 0
  let version ← readU32 data 4
  let vocabSize ← readU32 data 8
  let edgesCount ← readU32 data 12
  let _topN ← readU32 data 16
  let magicOk := magic == 0x4247524D
  let versionOk := version == 1
  let expectedSize := 32 + vocabSize * 8 + edgesCount * 8
  let actualSize := data.length
  let sizeOk := actualSize == expectedSize
  let edgesBase := 32 + vocabSize * 8
  let (offsetErrors, sortedErrors, duplicateErrors) ←
    validateIndexLoop data edgesBase actualSize 0 vocabSize (0, 0, 0)
  probeLoop data vocab edgesBase probeList
  let allPass := magicOk && versionOk && sizeOk &&
    (offsetErrors == 0) && (sortedErrors == 0) && (duplicateErrors == 0)
  Except.ok (allPass, 0)

/-! ### Canonical vocabulary maps

A vocabulary line is `(word, fst_value?)`: the cased word from
`en.vocab.txt` together with the optional packed `u64` value found for it in
the FST (`None` when `fst.get(&word)` misses).  `word_id` and `prob` are
extracted from the packed value exactly as in the source.  The `HashMap` is
modelled as a function from the lowercased key.  Unicode lowercasing
(`str::to_lowercase`) is a strategy parameter `lower` of the model (the
spec's §9 makes normalization a parameter); every statement below holds for
an arbitrary folding function. -/

/-- `((v >> 16) & 0xFFFF_FFFF) as u32` -/
def fstWordId (v : Nat) : Nat := (v >>> 16) % 4294967296

/-- `(v & 0xFF) as u8` -/
def fstProb (v : Nat) : Nat := v % 256

/-- One vocabulary line processed by `build_canonical_map` of `lib.rs`
(the shared-library version, with the exact-lowercase flag).  The entry for
`lower word` holds `(best_id, best_prob, is_exact)`. -/
def libCanonStep (lower : String → String) (m : String → Option (Nat × Nat × Bool))
    (line : String × Option Nat) : String → Option (Nat × Nat × Bool) :=
  match line.2 with
  | none => m
  | some v =>
    let wordId := fstWordId v
    let prob := fstProb v
    let low := lower line.1
    let isExact := line.1 == low
    fun k =>
      if k = low then
        match m low with
        | none => some (wordId, prob, isExact)
        | some (bestId, bestProb, bestExact) =>
          if bestExact then some (bestId, bestProb, bestExact)
          else if isExact then some (wordId, prob, true)
          else if prob > bestProb then some (wordId, prob, isExact)
          else some (bestId, bestProb, bestExact)
      else m k

/-- `build_canonical_map` from `lib.rs` (used by `build_trigram.rs` and
`suggest_hybrid.rs`): fold the vocabulary lines, then keep only the id. -/
def buildCanonicalMapLib (lower : String → String) (lines : List (String × Option Nat)) :
    String → Option Nat :=
  fun k => ((lines.foldl (libCanonStep lower) (fun _ => none)) k).map (fun t => t.1)

/-- One vocabulary line processed by the local `build_canonical_map` of
`build_bigram.rs` (also duplicated in `build_bigram_stream.rs`): highest
probability wins, no exact-lowercase flag. -/
def bigramCanonStep (lower : String → String) (m : String → Option (Nat × Nat))
    (line : String × Option Nat) : String → Option (Nat × Nat) :=
  match line.2 with
  | none => m
  | some v =>
    let wordId := fstWordId v
    let prob := fstProb v
    let low := lower line.1
    fun k =>
      if k = low then
        match m low with
        | none => some (wordId, prob)
        | some (bestId, bestProb) =>
          if prob > bestProb then some (wordId, prob) else some (bestId, bestProb)
      else m k

/-- The local `build_canonical_map` of `build_bigram.rs` /
`build_bigram_stream.rs`. -/
def buildCanonicalMapBigram (lower : String → String) (lines : List (String × Option Nat)) :
    String → Option Nat :=
  fun k => ((lines.foldl (bigramCanonStep lower) (fun _ => none)) k).map (fun t => t.1)

/-- The `(word_id, prob, is_exact)` entries of the vocabulary that fold to
lowercase key `k`, in file order. -/
def entriesForKey (lower : String → String) (k : String) (lines : List (String × Option Nat)) :
    List (Nat × Nat × Bool) :=
  lines.filterMap fun line =>
    match line.2 with
    | none => none
    | some v =>
      if lower line.1 = k then some (fstWordId v, fstProb v, line.1 == lower line.1)
      else none

/-- The `(word_id, prob)` entries of the vocabulary that fold to key `k`
(no exactness flag), in file order. -/
def entriesForKeyNE (lower : String → String) (k : String) (lines : List (String × Option Nat)) :
    List (Nat × Nat) :=
  lines.filterMap fun line =>
    match line.2 with
    | none => none
    | some v =>
      if lower line.1 = k then some (fstWordId v, fstProb v) else none

/-- "The entry with the higher prior wins; ties keep the first
encountered", one comparison at a time. -/
def pickHigher (acc : Option (Nat × Nat × Bool)) (e : Nat × Nat × Bool) :
    Option (Nat × Nat × Bool) :=
  match acc with
  | none => some e
  | some b => if e.2.1 > b.2.1 then some e else some b

/-- `pickHigher` without the exactness flag. -/
def pickHigherNE (acc : Option (Nat × Nat)) (e : Nat × Nat) : Option (Nat × Nat) :=
  match acc with
  | none => some e
  | some b => if e.2 > b.2 then some e else some b

/-- Modelled from the spec (§4.1): the winner among the entries folding to
one key — an exact-lowercase member is sticky and always wins (the first
one, should several occur); otherwise the entry with the higher prior wins,
ties keeping the first encountered. -/
def specBestId (es : List (Nat × Nat × Bool)) : Option Nat :=
  match es.find? (fun e => e.2.2) with
  | some e => some e.1
  | none => (es.foldl pickHigher none).map (fun e => e.1)

/-- Modelled from the spec: selection by highest prior alone, ties keeping
the first encountered (the rule actually implemented by the bigram
builders' local maps). -/
def specBestPriorId (es : List (Nat × Nat)) : Option Nat :=
  (es.foldl pickHigherNE none).map (fun e => e.1)

/-- The per-key effect of one `libCanonStep` on the entry stored for that
key. -/
def libKeyStep (cur : Option (Nat × Nat × Bool)) (e : Nat × Nat × Bool) :
    Option (Nat × Nat × Bool) :=
  match cur with
  | none => some e
  | some (bestId, bestProb, bestExact) =>
    if bestExact then some (bestId, bestProb, bestExact)
    else if e.2.2 then some (e.1, e.2.1, true)
    else if e.2.1 > bestProb then some e
    else some (bestId, bestProb, bestExact)

/-- The per-key effect of one `bigramCanonStep` on the entry stored for
that key. -/
def bigramKeyStep (cur : Option (Nat × Nat)) (e : Nat × Nat) : Option (Nat × Nat) :=
  match cur with
  | none => some e
  | some (bestId, bestProb) =>
    if e.2 > bestProb then some e else some (bestId, bestProb)

/-- The concrete case folding used by the counterexample lexicon. -/
def exLower (s : String) : String := if s = "B" then "b" else s

/-! ### `user_history.rs`

`f64` arithmetic is modelled over `ℝ`.  `u32` counters are modelled as
`Nat` (`saturating_add` never saturates in the claims below, and
`saturating_sub` is exactly `Nat` subtraction).  The wall-clock `now` is
passed explicitly. -/

def HL_LEXICON_SEC : ℝ := 14 * 24 * 3600

def HL_BIGRAM_SEC : ℝ := 7 * 24 * 3600

def SCORE_SCALE : ℝ := 10000

def BONUS_ACCEPT : ℝ := 3000

def MAX_SCORE : ℝ := 65535

/-- `exp2_decay` from `user_history.rs`: `2^(-age/half_life)`, and `0` for a
non-positive half life. -/
noncomputable def exp2_decay (ageSec : Nat) (halfLifeSec : ℝ) : ℝ :=
  if halfLifeSec ≤ 0 then 0 else (2 : ℝ) ^ (-(ageSec : ℝ) / halfLifeSec)

/-- Rust `val.clamp(0.0, 65535.0) as u16`: clamp into `[0, 65535]`, then
truncate (= floor, the value being non-negative). -/
noncomputable def u16OfClamped (x : ℝ) : Nat := ⌊max 0 (min 65535 x)⌋₊

structure WordStat where
  freq : Nat
  accept : Nat
  last_used : Nat
deriving DecidableEq

/-- The pre-clamp value `base + accept_bonus` computed inside
`WordStat::score`. -/
noncomputable def WordStat.scoreVal (s : WordStat) (now : Nat) : ℝ :=
  let age := now - s.last_used
  let decay := exp2_decay age HL_LEXICON_SEC
  let eff := (s.freq : ℝ) * decay
  let base := Real.log (1 + eff) * SCORE_SCALE
  let bonus := (s.accept : ℝ) * BONUS_ACCEPT
  base + bonus

/-- `WordStat::score`. -/
noncomputable def WordStat.score (s : WordStat) (now : Nat) : Nat :=
  u16OfClamped (s.scoreVal now)

structure EdgeStat where
  count : Nat
  last_used : Nat
deriving DecidableEq

/-- The pre-clamp value `val` computed inside `EdgeStat::score`. -/
noncomputable def EdgeStat.scoreVal (e : EdgeStat) (now : Nat) : ℝ :=
  let age := now - e.last_used
  let decay := exp2_decay age HL_BIGRAM_SEC
  let eff := (e.count : ℝ) * decay
  Real.log (1 + eff) * SCORE_SCALE

/-- `EdgeStat::score`. -/
noncomputable def EdgeStat.score (e : EdgeStat) (now : Nat) : Nat :=
  u16OfClamped (e.scoreVal now)

/-- `TopNTracker`, its `HashMap` as an association list.  The two
`#[serde(skip)]` fields are ordinary fields here; serialization is modelled
by `UserHistory.saveLoad` below. -/
structure TopNTracker where
  counts : List (Nat × EdgeStat)
  top_n : Nat
  prune_threshold : Nat

/-- `TopNTracker::new`. -/
def TopNTracker.new (topN : Nat) : TopNTracker :=
  ⟨[], if topN = 0 then 20 else topN, if topN = 0 then 2000 else topN * 100⟩

/-- `TopNTracker::get_top`: score every tracked edge at `now`, sort by score
descending (`sort_by` is a stable sort, modelled by `insertionSort`),
truncate to `top_n`. -/
noncomputable def TopNTracker.get_top (t : TopNTracker) (now : Nat) : List (Nat × Nat) :=
  let entries := t.counts.map (fun kv => (kv.1, kv.2.score now))
  let sorted := List.insertionSort (fun a b : Nat × Nat => b.2 ≤ a.2) entries
  sorted.take t.top_n

structure UserLexicon where
  word_to_id : List (String × Nat)
  id_to_meta : List (Nat × (String × WordStat))
  next_id : Nat

structure UserHistory where
  lexicon : UserLexicon
  bigrams : List (Nat × TopNTracker)

/-- `UserHistory::new`. -/
def UserHistory.new : UserHistory :=
  ⟨⟨[], [], 2147483648⟩, []⟩

/-- `UserHistory::predict` at an explicit clock value. -/
noncomputable def UserHistory.predict (h : UserHistory) (prevId : Nat) (now : Nat) :
    List (Nat × Nat) :=
  match h.bigrams.lookup prevId with
  | some t => t.get_top now
  | none => []

/-- Modelled from the serde derive semantics of the source annotations: in
`TopNTracker` the fields `top_n` and `prune_threshold` carry
`#[serde(skip)]` (`user_history.rs`, lines 139–142), so `save` writes only
`counts`, and on `load` serde fills each skipped field with the *field
type's* `Default::default()` — `0usize` — not with `TopNTracker`'s own
`Default` impl. -/
def TopNTracker.reloaded (t : TopNTracker) : TopNTracker :=
  ⟨t.counts, 0, 0⟩

/-- `save` followed by `load` on the same path: every serialized field round
trips through JSON unchanged, every `#[serde(skip)]` field is reset as in
`TopNTracker.reloaded`. -/
def UserHistory.saveLoad (h : UserHistory) : UserHistory :=
  ⟨h.lexicon, h.bigrams.map (fun kv => (kv.1, kv.2.reloaded))⟩

/-- `UserHistory::load`, its file-system interaction abstracted into an
oracle argument: `none` — the path does not exist; `some (Except.error ())`
— the file opens but `serde_json::from_reader` fails; `some (Except.ok h)`
— the file parses to `h`.  The source returns an empty history only in the
first case and propagates the deserialization failure with `?` in the
second. -/
def UserHistory.loadFrom (file : Option (Except Unit UserHistory)) : Except Unit UserHistory :=
  match file with
  | none => Except.ok UserHistory.new
  | some (Except.error e) => Except.error e
  | some (Except.ok h) => Except.ok h

/-- `UserHistory::save`, its serialization/IO outcome abstracted into an
oracle: the source propagates any `serde_json::to_writer` error with `?`
and otherwise returns `Ok(())`. -/
def UserHistory.saveTo (_h : UserHistory) (io : Except Unit Unit) : Except Unit Unit :=
  match io with
  | Except.error e => Except.error e
  | Except.ok () => Except.ok ()

/-! ### `quantize_weight` (`build_bigram.rs` line 326, `build_trigram.rs`
line 271, identical in `build_bigram_stream.rs`) -/

/-- `quantize_weight`: 0 when `count` or `max_count` is 0, else
`(ln(count) / max(ln(max_count), 1)).clamp(0, 1) * 65535` truncated to
`u16`. -/
noncomputable def quantize_weight (count maxCount : Nat) : Nat :=
  if count = 0 ∨ maxCount = 0 then 0
  else
    let ratio := Real.log count / max (Real.log maxCount) 1
    ⌊max 0 (min 1 ratio) * 65535⌋₊

/-- Modelled from the spec (§4.2 Weight quantization), word for word:
`ratio = ln(count) / max(ln(max), 1)`, `weight_u16 = clamp(ratio, 0, 1) *
65535`, and `count == 0` or `max == 0` gives weight 0. -/
noncomputable def specWeightU16 (count maxv : Nat) : Nat :=
  if count = 0 ∨ maxv = 0 then 0
  else ⌊max 0 (min 1 (Real.log count / max (Real.log maxv) 1)) * 65535⌋₊

/-! ### `build_trigram.rs`

The corpus, after the per-word normalization and canonical-map resolution
that both passes share, is a list of lines, each line a list of optional
global ids: `none` is a word whose normalization is empty or that misses
the canonical map (both reset the `(prev_prev_id, prev_id)` chain, exactly
as in the source; end of line also resets it).

Both passes walk the corpus with the same chain automaton and differ only
in the action taken on each complete window `(pp, p, n)`; the walk is
therefore modelled once, generically in the action.  The `HashMap`
iteration orders of the source (collecting `pair_freq` into a vector, and
walking `top_pairs` to build `pair_data`) are modelled as first-insertion
order; this fixes one possible run of the program, and the final pair table
is sorted by key with distinct keys, so the artifact itself does not depend
on that choice. -/

/-- A corpus line: each word either resolved to a global id or chain-breaking. -/
abbrev Corpus := List (List (Option Nat))

/-- One token step of the shared chain automaton: a `none` token resets the
chain; an id token fires the action `f` on `(pp, p, id)` when both
predecessors are present, then shifts the chain. -/
def chainStep {σ : Type} (f : σ → Nat × Nat × Nat → σ) :
    (Option Nat × Option Nat) × σ → Option Nat → (Option Nat × Option Nat) × σ
  | ((_, _), s), none => ((none, none), s)
  | ((pp, p), s), some id =>
    let s' := match pp, p with
      | some a, some b => f s (a, b, id)
      | _, _ => s
    ((p, some id), s')

/-- Walk one line. -/
def chainLine {σ : Type} (f : σ → Nat × Nat × Nat → σ)
    (st : (Option Nat × Option Nat) × σ) (line : List (Option Nat)) :
    (Option Nat × Option Nat) × σ :=
  line.foldl (chainStep f) st

/-- Walk the whole corpus; the chain is reset after every line. -/
def chainCorpus {σ : Type} (f : σ → Nat × Nat × Nat → σ) (s0 : σ) (corpus : Corpus) : σ :=
  (corpus.foldl (fun st line => ((none, none), (chainLine f st line).2)) ((none, none), s0)).2

/-- The complete three-token windows of the corpus, in order. -/
def triplesOf (corpus : Corpus) : List (Nat × Nat × Nat) :=
  chainCorpus (fun l t => l ++ [t]) [] corpus

/-- `*map.entry(k).or_insert(0) += 1` on a hash map modelled as an
association list in first-insertion order. -/
def bumpAssoc {κ : Type} [DecidableEq κ] : List (κ × Nat) → κ → List (κ × Nat)
  | [], k => [(k, 1)]
  | (k0, c) :: rest, k =>
    if k0 = k then (k0, c + 1) :: rest else (k0, c) :: bumpAssoc rest k

/-- Pass 1: `pair_freq`. -/
def pairFreq (corpus : Corpus) : List ((Nat × Nat) × Nat) :=
  chainCorpus (fun m t => bumpAssoc m (t.1, t.2.1)) [] corpus

/-- The comparator of `sort_by(|a, b| b.1.cmp(&a.1))` on `(_, count)`
vectors: count descending.  `Vec::sort_by` is stable; it is modelled by
`insertionSort`, which is stable for this total preorder. -/
def countDesc {α : Type} (a b : α × Nat) : Prop := b.2 ≤ a.2

instance {α : Type} : DecidableRel (@countDesc α) := fun a b => Nat.decLe b.2 a.2

instance {α : Type} : IsTotal (α × Nat) countDesc := ⟨fun a b => Nat.le_total b.2 a.2⟩

instance {α : Type} : IsTrans (α × Nat) countDesc :=
  ⟨fun _ _ _ h1 h2 => Nat.le_trans h2 h1⟩

/-- Top-`max_pairs` bigram pairs by count (stable sort then truncate). -/
def selectedPairs (corpus : Corpus) (maxPairs : Nat) : List ((Nat × Nat) × Nat) :=
  (List.insertionSort countDesc (pairFreq corpus)).take maxPairs

/-- The `top_pairs` map `(w1,w2) → dense index`: position in the selected
list (its keys are pairwise distinct). -/
def topPairsIdx (sel : List ((Nat × Nat) × Nat)) (pr : Nat × Nat) : Option Nat :=
  sel.findIdx? (fun e => e.1 == pr)

/-- Pass 2 action: `trigram_counts[pair_idx].entry(id) += 1` when the
window's pair is selected. -/
def trigramCountsStep (sel : List ((Nat × Nat) × Nat))
    (ms : List (List (Nat × Nat))) (t : Nat × Nat × Nat) : List (List (Nat × Nat)) :=
  match topPairsIdx sel (t.1, t.2.1) with
  | some i => ms.set i (bumpAssoc (ms.getD i []) t.2.2)
  | none => ms

/-- Pass 2: per-selected-pair successor counts. -/
def trigramCounts (corpus : Corpus) (sel : List ((Nat × Nat) × Nat)) :
    List (List (Nat × Nat)) :=
  chainCorpus (trigramCountsStep sel) (List.replicate sel.length []) corpus

/-- The `pair_data` construction loop, before weight quantization: for each
selected pair (with its dense index `i`), skip it if it collected no
trigrams, else sort its successors by count descending and truncate to
`top_n`. -/
def pairEntriesAux (tc : List (List (Nat × Nat))) (topN : Nat) :
    List ((Nat × Nat) × Nat) → Nat → List ((Nat × Nat) × List (Nat × Nat))
  | [], _ => []
  | (pr, _) :: rest, i =>
    let counts := tc.getD i []
    if counts = [] then pairEntriesAux tc topN rest (i + 1)
    else (pr, (List.insertionSort countDesc counts).take topN) :: pairEntriesAux tc topN rest (i + 1)

/-- The count-level `pair_data` (still carrying raw counts). -/
def pairEntries (corpus : Corpus) (maxPairs topN : Nat) :
    List ((Nat × Nat) × List (Nat × Nat)) :=
  let sel := selectedPairs corpus maxPairs
  pairEntriesAux (trigramCounts corpus sel) topN sel 0

/-- Weight quantization of one `pair_data` entry:
`max_count = nexts.first().map(|(_, c)| *c).unwrap_or(1)`. -/
noncomputable def weightEntry (e : (Nat × Nat) × List (Nat × Nat)) :
    (Nat × Nat) × List (Nat × Nat) :=
  let maxCount := ((e.2.head?).map (fun x => x.2)).getD 1
  (e.1, e.2.map (fun x => (x.1, quantize_weight x.2 maxCount)))

/-- `pair_data` with quantized weights, in construction order. -/
noncomputable def pairData (corpus : Corpus) (maxPairs topN : Nat) :
    List ((Nat × Nat) × List (Nat × Nat)) :=
  (pairEntries corpus maxPairs topN).map weightEntry

/-- `pair_data.sort_by_key(|((a, b), _)| (*a, *b))`: key order, `(w1, w2)`
lexicographically ascending. -/
def entryKeyLe (a b : (Nat × Nat) × List (Nat × Nat)) : Prop :=
  a.1.1 < b.1.1 ∨ (a.1.1 = b.1.1 ∧ a.1.2 ≤ b.1.2)

instance : DecidableRel entryKeyLe := fun a b => by
  unfold entryKeyLe; infer_instance

instance : IsTotal ((Nat × Nat) × List (Nat × Nat)) entryKeyLe := by
  constructor
  intro a b
  unfold entryKeyLe
  rcases Nat.lt_trichotomy a.1.1 b.1.1 with h | h | h
  · exact Or.inl (Or.inl h)
  · rcases Nat.le_total a.1.2 b.1.2 with h2 | h2
    · exact Or.inl (Or.inr ⟨h, h2⟩)
    · exact Or.inr (Or.inr ⟨h.symm, h2⟩)
  · exact Or.inr (Or.inl h)

instance : IsTrans ((Nat × Nat) × List (Nat × Nat)) entryKeyLe := by
  constructor
  intro a b c hab hbc
  unfold entryKeyLe at *
  rcases hab with h | ⟨he, h⟩ <;> rcases hbc with h2 | ⟨he2, h2⟩
  · exact Or.inl (Nat.lt_trans h h2)
  · exact Or.inl (he2 ▸ h)
  · exact Or.inl (he ▸ h2)
  · exact Or.inr ⟨he.trans he2, Nat.le_trans h h2⟩

/-- One serialized 8-byte edge record: `next_id(4) weight(2) reserved(2)`. -/
def edgeRecBytes (r : Nat × Nat) : List Nat := le32 r.1 ++ le16 r.2 ++ [0, 0]

/-- The serialized edge region of whole entries. -/
def entryEdgeBytes (edges : List (Nat × Nat)) : List Nat := edges.flatMap edgeRecBytes

/-- The serialized pair-index region: 16-byte entries
`w1(4) w2(4) offset(4) len(2) reserved(2)` with cumulative edge offsets. -/
def trigramIndexBytes : List ((Nat × Nat) × List (Nat × Nat)) → Nat → List Nat
  | [], _ => []
  | (pr, edges) :: rest, off =>
    le32 pr.1 ++ le32 pr.2 ++ le32 off ++ le16 edges.length ++ [0, 0] ++
      trigramIndexBytes rest (off + edges.length * 8)

/-- The serialized edges region. -/
def trigramEdgeBytes (pd : List ((Nat × Nat) × List (Nat × Nat))) : List Nat :=
  pd.flatMap (fun e => entryEdgeBytes e.2)

/-- The 32-byte header: `magic(4) version(4) num_pairs(4) top_n(4)
reserved(16)`. -/
def trigramHeaderBytes (numPairs topN : Nat) : List Nat :=
  le32 0x54524743 ++ le32 1 ++ le32 numPairs ++ le32 topN ++ List.replicate 16 0

/-- The full `en.trigram.cache.bin` written for a corpus. -/
noncomputable def trigramArtifact (corpus : Corpus) (maxPairs topN : Nat) : List Nat :=
  let pd := List.insertionSort entryKeyLe (pairData corpus maxPairs topN)
  trigramHeaderBytes pd.length topN ++ trigramIndexBytes pd 0 ++ trigramEdgeBytes pd

/-- The successors observed after the ordered pair `pr` in the corpus. -/
def observedSuccessors (corpus : Corpus) (pr : Nat × Nat) : List Nat :=
  (triplesOf corpus).filterMap (fun t => if (t.1, t.2.1) = pr then some t.2.2 else none)

/-! ### Auxiliary definitions used by the theorems -/

/-- Strict `(w1, w2)` key order on pair-table entries. -/
def entryKeyLt (a b : (Nat × Nat) × List (Nat × Nat)) : Prop :=
  a.1.1 < b.1.1 ∨ (a.1.1 = b.1.1 ∧ a.1.2 < b.1.2)

/-- Strict lexicographic order on `(w1, w2)` keys (the order used by the
binary search over the pair table). -/
def pairLt (a b : Nat × Nat) : Prop :=
  a.1 < b.1 ∨ (a.1 = b.1 ∧ a.2 < b.2)

/-- Occurrence counts of a list, as an association list in first-occurrence
order (the pure characterization of a `bumpAssoc` fold). -/
def countOcc {κ : Type} [DecidableEq κ] (l : List κ) : List (κ × Nat) :=
  l.foldl bumpAssoc []

/-- The `(pp, p)` components of the corpus windows. -/
def triplePairs (corpus : Corpus) : List (Nat × Nat) :=
  (triplesOf corpus).map (fun t => (t.1, t.2.1))

/-- A corrupted trigram artifact: a syntactically plausible header with
`num_pairs = 1` and one pair-index entry for `(0, 0)` claiming one edge
record at offset 0 — but no edge region at all (the buffer is 48 bytes, the
edge record would occupy bytes 48..55). -/
def corruptTrigramBuf : List Nat :=
  List.replicate 8 0 ++ le32 1 ++ le32 0 ++ List.replicate 16 0 ++
    (le32 0 ++ le32 0 ++ le32 0 ++ le16 1 ++ [0, 0])

/-- Vocabulary lines exercising case folding: cased `"B"` (id 0, prior 5)
followed by exact-lowercase `"b"` (id 1, prior 3); the packed FST values are
`id <<< 16 ||| prior`. -/
def exLexLines : List (String × Option Nat) := [("B", some 5), ("b", some 65539)]

/-- A user-history tracker holding the single learned edge `101`, as built
by `TopNTracker::new(20)` plus one `increment`. -/
def exTracker : TopNTracker := ⟨[(101, ⟨1, 0⟩)], 20, 2000⟩

/-- A user history with one learned bigram `100 → 101`. -/
def exHistory : UserHistory := ⟨⟨[], [], 2147483648⟩, [(100, exTracker)]⟩

/-- A one-line witness corpus `a b c` (ids 0 1 2). -/
def exCorpus : Corpus := [[some 0, some 1, some 2]]

/-- Concrete bigram-edge region data for the dropped-record demonstration:
two stored records `(0, 7)` and `(5, 9)`. -/
def exEdgeData : List Nat := le32 0 ++ le16 7 ++ [0, 0] ++ le32 5 ++ le16 9 ++ [0, 0]

/-! ## Theorems -/

/-! ### C9: gating is a stable partition -/

theorem gating_foldl (l : List (String × Nat)) (b o : List (String × Nat)) :
    l.foldl gatingStep (b, o) =
      (b ++ l.filter (fun e => boostWords.contains e.1),
       o ++ l.filter (fun e => !boostWords.contains e.1)) := by
  induction l generalizing b o with
  | nil => simp
  | cons e t ih =>
    by_cases h : e.1 ∈ boostWords
    · simp [gatingStep, h, ih, List.filter_cons]
    · simp [gatingStep, h, ih, List.filter_cons]

/-- C9: `apply_gating` is a stable partition of the suggestion list: the
function-word entries move to the front, each group keeps its relative
order, and no entry is added, removed or altered (in particular no weight
changes); consequently the output is a permutation of the input. -/
theorem c9_apply_gating_stable_partition (l : List (String × Nat)) :
    applyGating l =
      l.filter (fun e => boostWords.contains e.1) ++
        l.filter (fun e => !boostWords.contains e.1) ∧
      (applyGating l).Perm l := by
  have h : applyGating l =
      l.filter (fun e => boostWords.contains e.1) ++
        l.filter (fun e => !boostWords.contains e.1) := by
    simp [applyGating, gating_foldl l [] []]
  exact ⟨h, h ▸ List.filter_append_perm _ l⟩

/-! ### C3: `UserHistory::load` on malformed JSON -/

/-- C3 (settled against the source): a missing file loads as the empty
history, but a file that exists and fails to deserialize makes `load`
return the error (the `?` on `serde_json::from_reader`), not an empty
history; `save` propagates its serialization/IO error.  The middle
conjunct exhibits the divergence from the claim. -/
theorem c3_load_error_eval :
    UserHistory.loadFrom none = Except.ok UserHistory.new ∧
    UserHistory.loadFrom (some (Except.error ())) = Except.error () ∧
    UserHistory.saveTo UserHistory.new (Except.error ()) = Except.error () :=
  ⟨rfl, rfl, rfl⟩

/-! ### C4: the validator's exit code -/

theorem exitZero_of_bind {α : Type} (e : Except Unit α) (f : α → Except Unit (Bool × Nat))
    (hf : ∀ a b ec, f a = Except.ok (b, ec) → ec = 0) :
    ∀ b ec, e.bind f = Except.ok (b, ec) → ec = 0 := by
  intro b ec h
  cases e with
  | error u => simp [Except.bind] at h
  | ok a => exact hf a b ec (by simpa [Except.bind] using h)

/-- C4 (settled against the source): `main` of `validate_bigram.rs` ends in
`Ok(())`, so every non-panicking run exits 0 — including runs whose checks
failed.  First conjunct: the all-zero 32-byte artifact has a wrong magic and
version (`all_pass = false`) yet the exit code is 0.  Second conjunct: no
readable artifact whatsoever can make the validator exit non-zero. -/
theorem c4_validator_exit_zero :
    validateBigramRun (List.replicate 32 0) [] = Except.ok (false, 0) ∧
    ∀ data vocab b ec, validateBigramRun data vocab = Except.ok (b, ec) → ec = 0 := by
  constructor
  · rfl
  · intro data vocab
    unfold validateBigramRun
    apply exitZero_of_bind; intro magic
    apply exitZero_of_bind; intro version
    apply exitZero_of_bind; intro vocabSize
    apply exitZero_of_bind; intro edgesCount
    apply exitZero_of_bind; intro topN
    apply exitZero_of_bind; intro errs
    obtain ⟨offsetErrors, sortedErrors, duplicateErrors⟩ := errs
    apply exitZero_of_bind; intro u b ec h
    simp [pure, Except.pure] at h
    exact h.2.symm

/-! ### C2: decoder behaviour on corrupted buffers -/

/-- C2 (settled against the source): the decoders do panic on corrupted
buffers.  `lookup_trigram` reads the edge records of a matched pair with no
bounds check: on `corruptTrigramBuf`, whose single index entry describes an
edge record past the end of the buffer, the read `data[48]` is out of
bounds (modelled `Except.error ()`), so the lookup panics instead of
returning a null/empty result.  Even `lookup_bigram`, which guards its edge
reads, panics reading the header of a buffer shorter than 12 bytes. -/
theorem c2_lookup_panics_on_corruption :
    lookupTrigram corruptTrigramBuf 0 0 [] = Except.error () ∧
    lookupBigram (List.replicate 11 0) 0 [] = Except.error () :=
  ⟨rfl, rfl⟩

/-! ### C10: invalid `next_id`s are silently dropped -/

theorem trigramEdgeLoop_eq_filterMap (data : List Nat) (vocab : List String) :
    ∀ (n : Nat) (start : Nat),
      trigramEdgeLoop data vocab start n =
        Except.map (fun recs => recs.filterMap (vocabResolve vocab))
          (readEdgeRecs data start n) := by
  intro n
  induction n with
  | zero => intro start; rfl
  | succ n ih =>
    intro start
    simp only [trigramEdgeLoop, readEdgeRecs, ih]
    cases readU32 data start with
    | error u => rfl
    | ok nextId =>
      cases readU16 data (start + 4) with
      | error u => rfl
      | ok weight =>
        cases readEdgeRecs data (start + 8) n with
        | error u => rfl
        | ok recs =>
          simp only [Except.map, Except.bind, bind]
          cases hv : vocab[nextId]? with
          | none => simp [List.filterMap_cons, vocabResolve, hv]
          | some w => simp [List.filterMap_cons, vocabResolve, hv]

theorem bigramEdgeLoop_eq_filterMap (data : List Nat) (vocab : List String) :
    ∀ (n : Nat) (start : Nat),
      bigramEdgeLoop data vocab start n =
        (bigramRecs data start n).filterMap (vocabResolve vocab) := by
  intro n
  induction n with
  | zero => intro start; rfl
  | succ n ih =>
    intro start
    simp only [bigramEdgeLoop, bigramRecs]
    by_cases hg : start + 6 > data.length
    · simp [hg]
    · simp only [hg, if_false, List.filterMap_cons, ih]
      cases hv : vocab[readU32D data start]? with
      | none => simp [vocabResolve, hv]
      | some w => simp [vocabResolve, hv]

theorem bigramRecs_length (data : List Nat) :
    ∀ (n : Nat) (start : Nat), (bigramRecs data start n).length ≤ n := by
  intro n
  induction n with
  | zero => intro start; simp [bigramRecs]
  | succ n ih =>
    intro start
    simp only [bigramRecs]
    by_cases hg : start + 6 > data.length
    · simp [hg]
    · simpa [hg] using Nat.succ_le_succ (ih (start + 8))

/-- C10: in both lookups every decoded edge record is resolved through
`vocab.get(next_id)` and records with `next_id ≥ vocab.len()` are silently
dropped while the surviving ones keep the stored order — the returned list
is exactly the `filterMap` of the stored records.  Hence the result can be
strictly shorter than the stored `len`: the last conjunct shows a stored
list of 2 records yielding 1 suggestion (the record with `next_id = 5` is
outside the 1-word vocabulary). -/
theorem c10_lookup_drops_invalid_ids :
    (∀ (data : List Nat) (vocab : List String) (start n : Nat),
      trigramEdgeLoop data vocab start n =
        Except.map (fun recs => recs.filterMap (vocabResolve vocab))
          (readEdgeRecs data start n)) ∧
    (∀ (data : List Nat) (vocab : List String) (start n : Nat),
      bigramEdgeLoop data vocab start n =
        (bigramRecs data start n).filterMap (vocabResolve vocab)) ∧
    (∀ (data : List Nat) (vocab : List String) (start n : Nat),
      (bigramEdgeLoop data vocab start n).length ≤ n) ∧
    bigramEdgeLoop exEdgeData ["a"] 0 2 = [("a", 7)] := by
  refine ⟨fun data vocab start n => trigramEdgeLoop_eq_filterMap data vocab n start,
    fun data vocab start n => bigramEdgeLoop_eq_filterMap data vocab n start,
    fun data vocab start n => ?_, rfl⟩
  rw [bigramEdgeLoop_eq_filterMap]
  exact Nat.le_trans (List.length_filterMap_le _ _) (bigramRecs_length data n start)

/-! ### C8: weight quantization -/

theorem quantize_weight_le (c m : Nat) : quantize_weight c m ≤ 65535 := by
  unfold quantize_weight
  split
  · exact Nat.zero_le _
  · have h1 : max 0 (min 1 (Real.log c / max (Real.log m) 1)) ≤ 1 :=
      max_le (by norm_num) (min_le_left _ _)
    have h2 : max 0 (min 1 (Real.log c / max (Real.log m) 1)) * 65535 ≤ 65535 := by
      calc max 0 (min 1 (Real.log c / max (Real.log m) 1)) * 65535
          ≤ 1 * 65535 := mul_le_mul_of_nonneg_right h1 (by norm_num)
        _ = 65535 := one_mul _
    calc ⌊max 0 (min 1 (Real.log c / max (Real.log m) 1)) * 65535⌋₊
        ≤ ⌊(65535 : ℝ)⌋₊ := Nat.floor_le_floor h2
      _ = 65535 := by norm_num

theorem quantize_weight_mono (m : Nat) {c1 c2 : Nat} (h : c1 ≤ c2) :
    quantize_weight c1 m ≤ quantize_weight c2 m := by
  by_cases h1 : c1 = 0
  · simp [quantize_weight, h1]
  · by_cases hm : m = 0
    · simp [quantize_weight, hm]
    · have h2 : c2 ≠ 0 := by omega
      rw [quantize_weight, quantize_weight, if_neg (by tauto), if_neg (by tauto)]
      apply Nat.floor_le_floor
      apply mul_le_mul_of_nonneg_right _ (by norm_num : (0 : ℝ) ≤ 65535)
      apply max_le_max (le_refl (0 : ℝ))
      apply min_le_min (le_refl (1 : ℝ))
      have hM : (0 : ℝ) < max (Real.log m) 1 := lt_of_lt_of_le one_pos (le_max_right _ _)
      apply (div_le_div_right hM).mpr
      exact Real.log_le_log (by exact_mod_cast Nat.pos_of_ne_zero h1) (by exact_mod_cast h)

/-- C8: every weight the builders store equals the spec's formula
(`quantize_weight` of the source is literally the spec §4.2 quantizer:
clamp(ln count / max(ln max, 1), 0, 1) · 65535 truncated, with weight 0 for
a zero count or max), the quantizer is monotone in `count`, and therefore
within one entry, whose successors are sorted by count descending before
quantization, the stored weights are non-increasing. -/
theorem c8_quantize_weight_formula :
    (∀ c m, quantize_weight c m = specWeightU16 c m) ∧
    (∀ (m c1 c2 : Nat), c1 ≤ c2 → quantize_weight c1 m ≤ quantize_weight c2 m) ∧
    (∀ (l : List Nat) (m : Nat), l.Sorted (· ≥ ·) →
      (l.map (fun c => quantize_weight c m)).Sorted (· ≥ ·)) := by
  refine ⟨fun c m => rfl, fun m c1 c2 h => quantize_weight_mono m h, fun l m hl => ?_⟩
  exact List.Pairwise.map _ (fun a b hab => quantize_weight_mono m hab) hl

/-- Witness for `c8_quantize_weight_formula`: its hypotheses hold at
`c1 = 1 ≤ 2 = c2` and at the concrete descending count list `[4, 2, 1]`. -/
theorem c8_quantize_weight_formula_witness :
    ((1 : Nat) ≤ 2 ∧ quantize_weight 1 4 ≤ quantize_weight 2 4) ∧
    (([4, 2, 1] : List Nat).Sorted (· ≥ ·) ∧
      (([4, 2, 1] : List Nat).map (fun c => quantize_weight c 4)).Sorted (· ≥ ·)) :=
  ⟨⟨by norm_num, c8_quantize_weight_formula.2.1 4 1 2 (by norm_num)⟩,
    ⟨by decide, c8_quantize_weight_formula.2.2 [4, 2, 1] 4 (by decide)⟩⟩

/-! ### C7: score monotonicity -/

theorem exp2_decay_nonneg (a : Nat) (hl : ℝ) : 0 ≤ exp2_decay a hl := by
  unfold exp2_decay
  split
  · exact le_refl 0
  · exact (Real.rpow_pos_of_pos two_pos _).le

theorem exp2_decay_zero (hl : ℝ) (h : 0 < hl) : exp2_decay 0 hl = 1 := by
  unfold exp2_decay
  rw [if_neg (not_le.mpr h)]
  simp

theorem exp2_decay_lt (hl : ℝ) (h : 0 < hl) {a1 a2 : Nat} (hlt : a1 < a2) :
    exp2_decay a2 hl < exp2_decay a1 hl := by
  unfold exp2_decay
  rw [if_neg (not_le.mpr h), if_neg (not_le.mpr h)]
  apply (Real.rpow_lt_rpow_left_iff one_lt_two).mpr
  apply (div_lt_div_right h).mpr
  exact neg_lt_neg (by exact_mod_cast hlt)

theorem exp2_decay_le (hl : ℝ) {a1 a2 : Nat} (hle : a1 ≤ a2) :
    exp2_decay a2 hl ≤ exp2_decay a1 hl := by
  unfold exp2_decay
  by_cases hc : hl ≤ 0
  · rw [if_pos hc, if_pos hc]
  · rw [if_neg hc, if_neg hc]
    apply (Real.rpow_le_rpow_left_iff one_lt_two).mpr
    apply (div_le_div_right (not_le.mp hc)).mpr
    exact neg_le_neg (Nat.cast_le.mpr hle)

theorem u16OfClamped_mono {x y : ℝ} (h : x ≤ y) : u16OfClamped x ≤ u16OfClamped y :=
  Nat.floor_le_floor (max_le_max (le_refl 0) (min_le_min (le_refl _) h))

theorem logTerm_lt_of_count {c1 c2 : Nat} (d : ℝ) (hd : 0 < d) (h : c1 < c2) :
    Real.log (1 + (c1 : ℝ) * d) < Real.log (1 + (c2 : ℝ) * d) := by
  apply Real.log_lt_log
  · positivity
  · have : (c1 : ℝ) * d < (c2 : ℝ) * d :=
      mul_lt_mul_of_pos_right (by exact_mod_cast h) hd
    linarith

theorem logTerm_le_of_count {c1 c2 : Nat} (d : ℝ) (hd : 0 ≤ d) (h : c1 ≤ c2) :
    Real.log (1 + (c1 : ℝ) * d) ≤ Real.log (1 + (c2 : ℝ) * d) := by
  apply Real.log_le_log
  · positivity
  · have : (c1 : ℝ) * d ≤ (c2 : ℝ) * d :=
      mul_le_mul_of_nonneg_right (by exact_mod_cast h) hd
    linarith

theorem logTerm_lt_of_decay (c : Nat) (hc : 1 ≤ c) {d1 d2 : ℝ} (hd1 : 0 ≤ d1) (h : d1 < d2) :
    Real.log (1 + (c : ℝ) * d1) < Real.log (1 + (c : ℝ) * d2) := by
  have hc0 : (0 : ℝ) < c := by exact_mod_cast Nat.lt_of_lt_of_le Nat.zero_lt_one hc
  apply Real.log_lt_log
  · nlinarith
  · nlinarith [mul_lt_mul_of_pos_left h hc0]

theorem logTerm_le_of_decay (c : Nat) {d1 d2 : ℝ} (hd1 : 0 ≤ d1) (h : d1 ≤ d2) :
    Real.log (1 + (c : ℝ) * d1) ≤ Real.log (1 + (c : ℝ) * d2) := by
  have hc0 : (0 : ℝ) ≤ c := Nat.cast_nonneg c
  apply Real.log_le_log
  · nlinarith
  · nlinarith [mul_le_mul_of_nonneg_left h hc0]

/-- C7 (amended): the monotonicity claim holds for the pre-clamp score value
and, non-strictly, for the clamped `u16` score.  At `age = 0` (i.e.
`last_used = now`) the pre-clamp score is strictly increasing in the count
field (`freq` for `WordStat` at fixed `accept`, `count` for `EdgeStat`);
for a count of at least 1 it is strictly decreasing in age; and the final
clamped/truncated `u16` score is monotone non-strictly in both directions
(strictness is destroyed by the `clamp(0, 65535) as u16` step, and at count
0 the score is constant in age). -/
theorem c7_score_monotonic :
    (∀ (s1 s2 : WordStat) (now : Nat), s1.last_used = now → s2.last_used = now →
      s1.accept = s2.accept → s1.freq < s2.freq → s1.scoreVal now < s2.scoreVal now) ∧
    (∀ (e1 e2 : EdgeStat) (now : Nat), e1.last_used = now → e2.last_used = now →
      e1.count < e2.count → e1.scoreVal now < e2.scoreVal now) ∧
    (∀ (s : WordStat) (n1 n2 : Nat), 1 ≤ s.freq → s.last_used ≤ n1 → n1 < n2 →
      s.scoreVal n2 < s.scoreVal n1) ∧
    (∀ (e : EdgeStat) (n1 n2 : Nat), 1 ≤ e.count → e.last_used ≤ n1 → n1 < n2 →
      e.scoreVal n2 < e.scoreVal n1) ∧
    (∀ (s1 s2 : WordStat) (now : Nat), s1.last_used = s2.last_used →
      s1.accept = s2.accept → s1.freq ≤ s2.freq → s1.score now ≤ s2.score now) ∧
    (∀ (e1 e2 : EdgeStat) (now : Nat), e1.last_used = e2.last_used →
      e1.count ≤ e2.count → e1.score now ≤ e2.score now) ∧
    (∀ (s : WordStat) (n1 n2 : Nat), n1 ≤ n2 → s.score n2 ≤ s.score n1) ∧
    (∀ (e : EdgeStat) (n1 n2 : Nat), n1 ≤ n2 → e.score n2 ≤ e.score n1) := by
  have hlex : (0 : ℝ) < HL_LEXICON_SEC := by norm_num [HL_LEXICON_SEC]
  have hbig : (0 : ℝ) < HL_BIGRAM_SEC := by norm_num [HL_BIGRAM_SEC]
  have hscale : (0 : ℝ) < SCORE_SCALE := by norm_num [SCORE_SCALE]
  refine ⟨?_, ?_, ?_, ?_, ?_, ?_, ?_, ?_⟩
  · intro s1 s2 now h1 h2 hacc hfreq
    simp only [WordStat.scoreVal, h1, h2, Nat.sub_self, exp2_decay_zero _ hlex, hacc]
    apply add_lt_add_right
    exact mul_lt_mul_of_pos_right (logTerm_lt_of_count 1 one_pos hfreq) hscale
  · intro e1 e2 now h1 h2 hcount
    simp only [EdgeStat.scoreVal, h1, h2, Nat.sub_self, exp2_decay_zero _ hbig]
    exact mul_lt_mul_of_pos_right (logTerm_lt_of_count 1 one_pos hcount) hscale
  · intro s n1 n2 hfreq hlu hn
    simp only [WordStat.scoreVal]
    apply add_lt_add_right
    apply mul_lt_mul_of_pos_right _ hscale
    exact logTerm_lt_of_decay _ hfreq (exp2_decay_nonneg _ _)
      (exp2_decay_lt _ hlex (by omega))
  · intro e n1 n2 hcount hlu hn
    simp only [EdgeStat.scoreVal]
    apply mul_lt_mul_of_pos_right _ hscale
    exact logTerm_lt_of_decay _ hcount (exp2_decay_nonneg _ _)
      (exp2_decay_lt _ hbig (by omega))
  · intro s1 s2 now h1 hacc hfreq
    apply u16OfClamped_mono
    simp only [WordStat.scoreVal, h1, hacc]
    apply add_le_add_right
    exact mul_le_mul_of_nonneg_right
      (logTerm_le_of_count _ (exp2_decay_nonneg _ _) hfreq) hscale.le
  · intro e1 e2 now h1 hcount
    apply u16OfClamped_mono
    simp only [EdgeStat.scoreVal, h1]
    exact mul_le_mul_of_nonneg_right
      (logTerm_le_of_count _ (exp2_decay_nonneg _ _) hcount) hscale.le
  · intro s n1 n2 hn
    apply u16OfClamped_mono
    simp only [WordStat.scoreVal]
    apply add_le_add_right
    exact mul_le_mul_of_nonneg_right
      (logTerm_le_of_decay _ (exp2_decay_nonneg _ _) (exp2_decay_le _ (by omega))) hscale.le
  · intro e n1 n2 hn
    apply u16OfClamped_mono
    simp only [EdgeStat.scoreVal]
    exact mul_le_mul_of_nonneg_right
      (logTerm_le_of_decay _ (exp2_decay_nonneg _ _) (exp2_decay_le _ (by omega))) hscale.le

/-- Witness for `c7_score_monotonic`: all eight parts instantiated at
concrete stats with their hypotheses discharged by computation. -/
theorem c7_score_monotonic_witness :
    (WordStat.scoreVal ⟨1, 0, 5⟩ 5 < WordStat.scoreVal ⟨2, 0, 5⟩ 5) ∧
    (EdgeStat.scoreVal ⟨1, 5⟩ 5 < EdgeStat.scoreVal ⟨2, 5⟩ 5) ∧
    (WordStat.scoreVal ⟨1, 0, 0⟩ 1 < WordStat.scoreVal ⟨1, 0, 0⟩ 0) ∧
    (EdgeStat.scoreVal ⟨1, 0⟩ 1 < EdgeStat.scoreVal ⟨1, 0⟩ 0) ∧
    (WordStat.score ⟨1, 0, 0⟩ 0 ≤ WordStat.score ⟨2, 0, 0⟩ 0) ∧
    (EdgeStat.score ⟨1, 0⟩ 0 ≤ EdgeStat.score ⟨2, 0⟩ 0) ∧
    (WordStat.score ⟨1, 0, 0⟩ 1 ≤ WordStat.score ⟨1, 0, 0⟩ 0) ∧
    (EdgeStat.score ⟨1, 0⟩ 1 ≤ EdgeStat.score ⟨1, 0⟩ 0) :=
  ⟨c7_score_monotonic.1 ⟨1, 0, 5⟩ ⟨2, 0, 5⟩ 5 rfl rfl rfl (by norm_num),
   c7_score_monotonic.2.1 ⟨1, 5⟩ ⟨2, 5⟩ 5 rfl rfl (by norm_num),
   c7_score_monotonic.2.2.1 ⟨1, 0, 0⟩ 0 1 (by norm_num) (by norm_num) (by norm_num),
   c7_score_monotonic.2.2.2.1 ⟨1, 0⟩ 0 1 (by norm_num) (by norm_num) (by norm_num),
   c7_score_monotonic.2.2.2.2.1 ⟨1, 0, 0⟩ ⟨2, 0, 0⟩ 0 rfl rfl (by norm_num),
   c7_score_monotonic.2.2.2.2.2.1 ⟨1, 0⟩ ⟨2, 0⟩ 0 rfl (by norm_num),
   c7_score_monotonic.2.2.2.2.2.2.1 ⟨1, 0, 0⟩ 0 1 (by norm_num),
   c7_score_monotonic.2.2.2.2.2.2.2 ⟨1, 0⟩ 0 1 (by norm_num)⟩

/-- Counterexample to C7 as stated: at count 0 the score is *not* strictly
decreasing in age — an `EdgeStat` with `count = 0` scores 0 at every clock
value, in particular at age 604800 (one half-life) versus age 0. -/
theorem c7_counterexample :
    ¬ (EdgeStat.score ⟨0, 0⟩ 604800 < EdgeStat.score ⟨0, 0⟩ 0) := by
  have h : ∀ now : Nat, EdgeStat.score ⟨0, 0⟩ now = 0 := by
    intro now
    have h0 : EdgeStat.scoreVal ⟨0, 0⟩ now = 0 := by
      simp [EdgeStat.scoreVal]
    rw [EdgeStat.score, h0]
    have : min (65535 : ℝ) 0 = 0 := min_eq_right (by norm_num)
    rw [u16OfClamped, this, max_self]
    exact Nat.floor_zero
  rw [h 604800, h 0]
  omega

/-! ### C1: save/load round trip of predictions -/

/-- C1 (settled against the source): the JSON round trip does *not*
reproduce predictions.  `TopNTracker.top_n` is `#[serde(skip)]`, so a
loaded tracker has `top_n = 0` and `get_top` truncates every prediction
list to length 0: after `save`/`load` every `predict` is empty, while the
original history predicts its learned successor. -/
theorem c1_saveload_breaks_predictions :
    (exHistory.saveLoad).predict 100 0 = [] ∧ exHistory.predict 100 0 ≠ [] := by
  constructor
  · simp [UserHistory.saveLoad, UserHistory.predict, exHistory, exTracker,
      TopNTracker.reloaded, TopNTracker.get_top, List.lookup]
  · simp [UserHistory.predict, exHistory, exTracker, TopNTracker.get_top,
      List.lookup, List.insertionSort, List.orderedInsert]

/-! ### C5: the canonical "best id" rule -/

theorem libCanon_fold_key (lower : String → String) (lines : List (String × Option Nat)) :
    ∀ (m : String → Option (Nat × Nat × Bool)) (k : String),
      (lines.foldl (libCanonStep lower) m) k =
        (entriesForKey lower k lines).foldl libKeyStep (m k) := by
  induction lines with
  | nil => intro m k; rfl
  | cons l ls ih =>
    intro m k
    rw [List.foldl_cons, ih]
    cases hl2 : l.2 with
    | none =>
      simp [entriesForKey, List.filterMap_cons, hl2, libCanonStep]
    | some v =>
      by_cases hk : lower l.1 = k
      · have he : entriesForKey lower k (l :: ls) =
            (fstWordId v, fstProb v, l.1 == lower l.1) :: entriesForKey lower k ls := by
          simp [entriesForKey, List.filterMap_cons, hl2, hk]
        have hstep : (libCanonStep lower m l) k =
            libKeyStep (m k) (fstWordId v, fstProb v, l.1 == lower l.1) := by
          simp only [libCanonStep, hl2]
          rw [if_pos hk.symm, hk]
          cases hmk : m k with
          | none => rfl
          | some b => obtain ⟨bid, bp, bex⟩ := b; rfl
        rw [he, List.foldl_cons, hstep]
      · have he : entriesForKey lower k (l :: ls) = entriesForKey lower k ls := by
          simp [entriesForKey, List.filterMap_cons, hl2, hk]
        have hstep : (libCanonStep lower m l) k = m k := by
          simp only [libCanonStep, hl2]
          rw [if_neg (fun hkk => hk hkk.symm)]
        rw [he, hstep]

theorem bigramCanon_fold_key (lower : String → String) (lines : List (String × Option Nat)) :
    ∀ (m : String → Option (Nat × Nat)) (k : String),
      (lines.foldl (bigramCanonStep lower) m) k =
        (entriesForKeyNE lower k lines).foldl bigramKeyStep (m k) := by
  induction lines with
  | nil => intro m k; rfl
  | cons l ls ih =>
    intro m k
    rw [List.foldl_cons, ih]
    cases hl2 : l.2 with
    | none =>
      simp [entriesForKeyNE, List.filterMap_cons, hl2, bigramCanonStep]
    | some v =>
      by_cases hk : lower l.1 = k
      · have he : entriesForKeyNE lower k (l :: ls) =
            (fstWordId v, fstProb v) :: entriesForKeyNE lower k ls := by
          simp [entriesForKeyNE, List.filterMap_cons, hl2, hk]
        have hstep : (bigramCanonStep lower m l) k =
            bigramKeyStep (m k) (fstWordId v, fstProb v) := by
          simp only [bigramCanonStep, hl2]
          rw [if_pos hk.symm, hk]
          cases hmk : m k with
          | none => rfl
          | some b => obtain ⟨bid, bp⟩ := b; rfl
        rw [he, List.foldl_cons, hstep]
      · have he : entriesForKeyNE lower k (l :: ls) = entriesForKeyNE lower k ls := by
          simp [entriesForKeyNE, List.filterMap_cons, hl2, hk]
        have hstep : (bigramCanonStep lower m l) k = m k := by
          simp only [bigramCanonStep, hl2]
          rw [if_neg (fun hkk => hk hkk.symm)]
        rw [he, hstep]

theorem libKeyStep_absorb : ∀ (es : List (Nat × Nat × Bool)) (i p : Nat),
    es.foldl libKeyStep (some (i, p, true)) = some (i, p, true) := by
  intro es
  induction es with
  | nil => intro i p; rfl
  | cons e rest ih =>
    intro i p
    rw [List.foldl_cons]
    have h1 : libKeyStep (some (i, p, true)) e = some (i, p, true) := rfl
    rw [h1]
    exact ih i p

theorem libKeyFold_from_false : ∀ (es : List (Nat × Nat × Bool)) (i p : Nat),
    ((es.foldl libKeyStep (some (i, p, false))).map (fun t => t.1)) =
      (match es.find? (fun e => e.2.2) with
       | some e => some e.1
       | none => ((es.foldl pickHigher (some (i, p, false))).map (fun t => t.1))) := by
  intro es
  induction es with
  | nil => intro i p; rfl
  | cons e rest ih =>
    intro i p
    obtain ⟨eid, ep, eex⟩ := e
    cases eex with
    | true =>
      rw [List.foldl_cons]
      have h1 : libKeyStep (some (i, p, false)) (eid, ep, true) = some (eid, ep, true) := rfl
      rw [h1, libKeyStep_absorb, List.find?_cons_of_pos _ rfl]
      rfl
    | false =>
      rw [List.foldl_cons, List.foldl_cons,
        List.find?_cons_of_neg _ (by simp)]
      by_cases hp : ep > p
      · have h1 : libKeyStep (some (i, p, false)) (eid, ep, false) = some (eid, ep, false) := by
          simp [libKeyStep, hp]
        have h2 : pickHigher (some (i, p, false)) (eid, ep, false) = some (eid, ep, false) := by
          simp [pickHigher, hp]
        rw [h1, h2]
        exact ih eid ep
      · have h1 : libKeyStep (some (i, p, false)) (eid, ep, false) = some (i, p, false) := by
          simp [libKeyStep, hp]
        have h2 : pickHigher (some (i, p, false)) (eid, ep, false) = some (i, p, false) := by
          simp [pickHigher, hp]
        rw [h1, h2]
        exact ih i p

theorem bigramKeyStep_eq_pick : bigramKeyStep = pickHigherNE := by
  funext cur e
  cases cur with
  | none => rfl
  | some b => obtain ⟨x, y⟩ := b; rfl

/-- C5 (amended): the spec's selection rule — exact-lowercase sticky,
otherwise highest prior, ties to the first encountered — is exactly what
the *shared* `build_canonical_map` of `lib.rs` computes (the map used by
the trigram builder and the hybrid suggestion engine), for every
vocabulary, key and folding function; the local maps of the bigram builders
(`build_bigram.rs`, `build_bigram_stream.rs`) instead select by highest
prior alone, with no exact-lowercase stickiness. -/
theorem c5_canonical_map_rule :
    (∀ (lower : String → String) (lines : List (String × Option Nat)) (k : String),
      buildCanonicalMapLib lower lines k = specBestId (entriesForKey lower k lines)) ∧
    (∀ (lower : String → String) (lines : List (String × Option Nat)) (k : String),
      buildCanonicalMapBigram lower lines k = specBestPriorId (entriesForKeyNE lower k lines)) := by
  constructor
  · intro lower lines k
    show ((lines.foldl (libCanonStep lower) (fun _ => none)) k).map (fun t => t.1) = _
    rw [libCanon_fold_key]
    generalize entriesForKey lower k lines = es
    cases es with
    | nil => rfl
    | cons e rest =>
      obtain ⟨eid, ep, eex⟩ := e
      rw [List.foldl_cons]
      have h0 : libKeyStep none (eid, ep, eex) = some (eid, ep, eex) := rfl
      rw [h0]
      cases eex with
      | true =>
        rw [libKeyStep_absorb]
        unfold specBestId
        rw [List.find?_cons_of_pos _ rfl]
        rfl
      | false =>
        rw [libKeyFold_from_false]
        unfold specBestId
        rw [List.find?_cons_of_neg _ (by simp)]
        cases hf : rest.find? (fun e => e.2.2) with
        | some f => simp [hf]
        | none =>
          simp only [hf]
          rw [List.foldl_cons]
          rfl
  · intro lower lines k
    show ((lines.foldl (bigramCanonStep lower) (fun _ => none)) k).map (fun t => t.1) = _
    rw [bigramCanon_fold_key]
    unfold specBestPriorId
    rw [bigramKeyStep_eq_pick]

/-- Counterexample to C5 as stated: on a lexicon where cased `"B"` (id 0,
prior 5) precedes exact-lowercase `"b"` (id 1, prior 3), the canonical map
the bigram builder actually uses picks id 0 by prior, not the
exact-lowercase id 1 demanded by the claimed rule — the rule does *not*
hold for every builder. -/
theorem c5_counterexample :
    buildCanonicalMapBigram exLower exLexLines "b" = some 0 ∧
    specBestId (entriesForKey exLower "b" exLexLines) = some 1 ∧
    buildCanonicalMapBigram exLower exLexLines "b" ≠
      specBestId (entriesForKey exLower "b" exLexLines) :=
  ⟨by decide, by decide, by decide⟩

/-! ### C6: serialization read-back lemmas -/

theorem byteAt_append_right (a b : List Nat) (i : Nat) :
    byteAt (a ++ b) (a.length + i) = byteAt b i := by
  unfold byteAt
  have h : a.length + i - a.length = i := by omega
  rw [List.getElem?_append_right (Nat.le_add_right _ _), h]

theorem readU32_append_right (a b : List Nat) (i : Nat) :
    readU32 (a ++ b) (a.length + i) = readU32 b i := by
  unfold readU32
  rw [show a.length + i + 1 = a.length + (i + 1) by omega,
    show a.length + i + 2 = a.length + (i + 2) by omega,
    show a.length + i + 3 = a.length + (i + 3) by omega,
    byteAt_append_right, byteAt_append_right, byteAt_append_right, byteAt_append_right]

theorem readU16_append_right (a b : List Nat) (i : Nat) :
    readU16 (a ++ b) (a.length + i) = readU16 b i := by
  unfold readU16
  rw [show a.length + i + 1 = a.length + (i + 1) by omega,
    byteAt_append_right, byteAt_append_right]

theorem readU32_le32 (v : Nat) (rest : List Nat) (h : v < 4294967296) :
    readU32 (le32 v ++ rest) 0 = Except.ok v := by
  simp only [readU32, le32, byteAt, List.cons_append, List.nil_append,
    List.getElem?_cons_zero, List.getElem?_cons_succ, Except.bind, bind]
  congr 1
  omega

theorem readU16_le16 (v : Nat) (rest : List Nat) (h : v < 65536) :
    readU16 (le16 v ++ rest) 0 = Except.ok v := by
  simp only [readU16, le16, byteAt, List.cons_append, List.nil_append,
    List.getElem?_cons_zero, List.getElem?_cons_succ, Except.bind, bind]
  congr 1
  omega

theorem readU32_here (P R : List Nat) (v i : Nat) (hi : i = P.length) (hv : v < 4294967296) :
    readU32 (P ++ (le32 v ++ R)) i = Except.ok v := by
  subst hi
  rw [show P.length = P.length + 0 by omega, readU32_append_right, readU32_le32 v R hv]

theorem readU16_here (P R : List Nat) (v i : Nat) (hi : i = P.length) (hv : v < 65536) :
    readU16 (P ++ (le16 v ++ R)) i = Except.ok v := by
  subst hi
  rw [show P.length = P.length + 0 by omega, readU16_append_right, readU16_le16 v R hv]

theorem le32_length (v : Nat) : (le32 v).length = 4 := rfl

theorem le16_length (v : Nat) : (le16 v).length = 2 := rfl

theorem edgeRecBytes_length (r : Nat × Nat) : (edgeRecBytes r).length = 8 := rfl

theorem entryEdgeBytes_length (edges : List (Nat × Nat)) :
    (entryEdgeBytes edges).length = 8 * edges.length := by
  induction edges with
  | nil => rfl
  | cons r rest ih =>
    simp only [entryEdgeBytes, List.flatMap_cons] at *
    simp [List.length_append, ih, edgeRecBytes_length]
    omega

theorem trigramIndexBytes_length :
    ∀ (pd : List ((Nat × Nat) × List (Nat × Nat))) (off : Nat),
      (trigramIndexBytes pd off).length = 16 * pd.length := by
  intro pd
  induction pd with
  | nil => intro off; rfl
  | cons e rest ih =>
    intro off
    obtain ⟨pr, edges⟩ := e
    simp only [trigramIndexBytes, List.length_append, ih, le32_length, le16_length,
      List.length_cons, List.length_nil]
    omega

theorem trigramHeaderBytes_length (n t : Nat) : (trigramHeaderBytes n t).length = 32 := rfl

/-- Decoding a sequence of serialized edge records placed at offset
`|P|`. -/
theorem readEdgeRecs_entry :
    ∀ (recs : List (Nat × Nat)) (P R : List Nat) (i : Nat), i = P.length →
      (∀ r ∈ recs, r.1 < 4294967296 ∧ r.2 < 65536) →
      readEdgeRecs (P ++ (entryEdgeBytes recs ++ R)) i recs.length = Except.ok recs := by
  intro recs
  induction recs with
  | nil => intro P R i hi hb; rfl
  | cons r rest ih =>
    intro P R i hi hb
    have hr := hb r (List.mem_cons_self r rest)
    have hA : P ++ (entryEdgeBytes (r :: rest) ++ R) =
        P ++ (le32 r.1 ++ (le16 r.2 ++ ([0, 0] ++ (entryEdgeBytes rest ++ R)))) := by
      simp [entryEdgeBytes, List.flatMap_cons, edgeRecBytes, List.append_assoc]
    simp only [List.length_cons, readEdgeRecs, hA]
    rw [readU32_here P _ r.1 i hi hr.1]
    have h16 : readU16 (P ++ (le32 r.1 ++ (le16 r.2 ++ ([0, 0] ++ (entryEdgeBytes rest ++ R)))))
        (i + 4) = Except.ok r.2 := by
      rw [show P ++ (le32 r.1 ++ (le16 r.2 ++ ([0, 0] ++ (entryEdgeBytes rest ++ R)))) =
        (P ++ le32 r.1) ++ (le16 r.2 ++ ([0, 0] ++ (entryEdgeBytes rest ++ R))) by
          simp [List.append_assoc]]
      exact readU16_here _ _ _ _ (by simp [hi, le32_length]) hr.2
    rw [h16]
    have hrest : readEdgeRecs (P ++ (le32 r.1 ++ (le16 r.2 ++ ([0, 0] ++ (entryEdgeBytes rest ++ R)))))
        (i + 8) rest.length = Except.ok rest := by
      rw [show P ++ (le32 r.1 ++ (le16 r.2 ++ ([0, 0] ++ (entryEdgeBytes rest ++ R)))) =
        (P ++ (le32 r.1 ++ le16 r.2 ++ [0, 0])) ++ (entryEdgeBytes rest ++ R) by
          simp [List.append_assoc]]
      exact ih _ _ _ (by simp [hi, le32_length, le16_length])
        (fun x hx => hb x (List.mem_cons_of_mem r hx))
    rw [hrest]
    simp [Except.bind, bind]

theorem trigramIndexBytes_split :
    ∀ (pd : List ((Nat × Nat) × List (Nat × Nat))) (off0 j : Nat) (hj : j < pd.length),
      ∃ pre post,
        trigramIndexBytes pd off0 =
          pre ++ (le32 (pd.get ⟨j, hj⟩).1.1 ++ (le32 (pd.get ⟨j, hj⟩).1.2 ++
            (le32 (off0 + 8 * ((pd.take j).map (fun e => e.2.length)).sum) ++
              (le16 (pd.get ⟨j, hj⟩).2.length ++ ([0, 0] ++ post))))) ∧
        pre.length = 16 * j := by
  intro pd
  induction pd with
  | nil => intro off0 j hj; exact absurd hj (by simp)
  | cons e rest ih =>
    intro off0 j hj
    obtain ⟨pr, edges⟩ := e
    cases j with
    | zero =>
      refine ⟨[], trigramIndexBytes rest (off0 + edges.length * 8), ?_, by simp⟩
      simp [trigramIndexBytes, List.append_assoc]
    | succ j =>
      have hj2 : j < rest.length := by simpa using hj
      obtain ⟨pre, post, hsplit, hlen⟩ := ih (off0 + edges.length * 8) j hj2
      refine ⟨le32 pr.1 ++ le32 pr.2 ++ le32 off0 ++ le16 edges.length ++ [0, 0] ++ pre,
        post, ?_, by simp [le32_length, le16_length, hlen]; omega⟩
      have harith : off0 + edges.length * 8 +
          8 * ((rest.take j).map (fun e => e.2.length)).sum =
          off0 + 8 * ((((pr, edges) :: rest).take (j + 1)).map (fun e => e.2.length)).sum := by
        simp [List.take_succ_cons]
        omega
      simp only [trigramIndexBytes, List.get_cons_succ]
      rw [hsplit, ← harith]
      simp [List.append_assoc]

theorem trigramEdgeBytes_split :
    ∀ (pd : List ((Nat × Nat) × List (Nat × Nat))) (j : Nat) (hj : j < pd.length),
      ∃ epre epost,
        trigramEdgeBytes pd = epre ++ (entryEdgeBytes (pd.get ⟨j, hj⟩).2 ++ epost) ∧
        epre.length = 8 * ((pd.take j).map (fun e => e.2.length)).sum := by
  intro pd
  induction pd with
  | nil => intro j hj; exact absurd hj (by simp)
  | cons e rest ih =>
    intro j hj
    obtain ⟨pr, edges⟩ := e
    cases j with
    | zero =>
      refine ⟨[], trigramEdgeBytes rest, ?_, by simp⟩
      simp [trigramEdgeBytes, List.flatMap_cons]
    | succ j =>
      have hj2 : j < rest.length := by simpa using hj
      obtain ⟨epre, epost, hsplit, hlen⟩ := ih j hj2
      refine ⟨entryEdgeBytes edges ++ epre, epost, ?_, ?_⟩
      · simp only [trigramEdgeBytes, List.flatMap_cons, List.get_cons_succ] at *
        rw [hsplit, List.append_assoc]
      · simp [entryEdgeBytes_length, hlen, List.take_succ_cons]
        omega

theorem trigram_entry_reads (pd : List ((Nat × Nat) × List (Nat × Nat))) (topN j : Nat)
    (hj : j < pd.length)
    (hw1 : (pd.get ⟨j, hj⟩).1.1 < 4294967296)
    (hw2 : (pd.get ⟨j, hj⟩).1.2 < 4294967296)
    (hoff : 8 * ((pd.take j).map (fun e => e.2.length)).sum < 4294967296)
    (hlen : (pd.get ⟨j, hj⟩).2.length < 65536) :
    readU32 (trigramHeaderBytes pd.length topN ++ trigramIndexBytes pd 0 ++ trigramEdgeBytes pd)
        (32 + j * 16) = Except.ok (pd.get ⟨j, hj⟩).1.1 ∧
    readU32 (trigramHeaderBytes pd.length topN ++ trigramIndexBytes pd 0 ++ trigramEdgeBytes pd)
        (32 + j * 16 + 4) = Except.ok (pd.get ⟨j, hj⟩).1.2 ∧
    readU32 (trigramHeaderBytes pd.length topN ++ trigramIndexBytes pd 0 ++ trigramEdgeBytes pd)
        (32 + j * 16 + 8) = Except.ok (8 * ((pd.take j).map (fun e => e.2.length)).sum) ∧
    readU16 (trigramHeaderBytes pd.length topN ++ trigramIndexBytes pd 0 ++ trigramEdgeBytes pd)
        (32 + j * 16 + 12) = Except.ok (pd.get ⟨j, hj⟩).2.length := by
  obtain ⟨pre, post, hsplit, hlen16⟩ := trigramIndexBytes_split pd 0 j hj
  have hzero : (0 : Nat) + 8 * ((pd.take j).map (fun e => e.2.length)).sum =
      8 * ((pd.take j).map (fun e => e.2.length)).sum := by omega
  rw [hzero] at hsplit
  refine ⟨?_, ?_, ?_, ?_⟩
  · have hA : trigramHeaderBytes pd.length topN ++ trigramIndexBytes pd 0 ++ trigramEdgeBytes pd =
        (trigramHeaderBytes pd.length topN ++ pre) ++
          (le32 (pd.get ⟨j, hj⟩).1.1 ++
            (le32 (pd.get ⟨j, hj⟩).1.2 ++
              (le32 (8 * ((pd.take j).map (fun e => e.2.length)).sum) ++
                (le16 (pd.get ⟨j, hj⟩).2.length ++ ([0, 0] ++ (post ++ trigramEdgeBytes pd)))))) := by
      rw [hsplit]
      simp [List.append_assoc]
    rw [hA]
    exact readU32_here _ _ _ _ (by simp [trigramHeaderBytes_length, hlen16]; omega) hw1
  · have hA : trigramHeaderBytes pd.length topN ++ trigramIndexBytes pd 0 ++ trigramEdgeBytes pd =
        (trigramHeaderBytes pd.length topN ++ pre ++ le32 (pd.get ⟨j, hj⟩).1.1) ++
          (le32 (pd.get ⟨j, hj⟩).1.2 ++
            (le32 (8 * ((pd.take j).map (fun e => e.2.length)).sum) ++
              (le16 (pd.get ⟨j, hj⟩).2.length ++ ([0, 0] ++ (post ++ trigramEdgeBytes pd))))) := by
      rw [hsplit]
      simp [List.append_assoc]
    rw [hA]
    exact readU32_here _ _ _ _
      (by simp [trigramHeaderBytes_length, hlen16, le32_length]; omega) hw2
  · have hA : trigramHeaderBytes pd.length topN ++ trigramIndexBytes pd 0 ++ trigramEdgeBytes pd =
        (trigramHeaderBytes pd.length topN ++ pre ++ le32 (pd.get ⟨j, hj⟩).1.1 ++
            le32 (pd.get ⟨j, hj⟩).1.2) ++
          (le32 (8 * ((pd.take j).map (fun e => e.2.length)).sum) ++
            (le16 (pd.get ⟨j, hj⟩).2.length ++ ([0, 0] ++ (post ++ trigramEdgeBytes pd)))) := by
      rw [hsplit]
      simp [List.append_assoc]
    rw [hA]
    exact readU32_here _ _ _ _
      (by simp [trigramHeaderBytes_length, hlen16, le32_length]; omega) hoff
  · have hA : trigramHeaderBytes pd.length topN ++ trigramIndexBytes pd 0 ++ trigramEdgeBytes pd =
        (trigramHeaderBytes pd.length topN ++ pre ++ le32 (pd.get ⟨j, hj⟩).1.1 ++
            le32 (pd.get ⟨j, hj⟩).1.2 ++
            le32 (8 * ((pd.take j).map (fun e => e.2.length)).sum)) ++
          (le16 (pd.get ⟨j, hj⟩).2.length ++ ([0, 0] ++ (post ++ trigramEdgeBytes pd))) := by
      rw [hsplit]
      simp [List.append_assoc]
    rw [hA]
    exact readU16_here _ _ _ _
      (by simp [trigramHeaderBytes_length, hlen16, le32_length]; omega) hlen

theorem trigram_edges_read (pd : List ((Nat × Nat) × List (Nat × Nat))) (topN j : Nat)
    (hj : j < pd.length)
    (hb : ∀ r ∈ (pd.get ⟨j, hj⟩).2, r.1 < 4294967296 ∧ r.2 < 65536) :
    readEdgeRecs (trigramHeaderBytes pd.length topN ++ trigramIndexBytes pd 0 ++ trigramEdgeBytes pd)
        (32 + pd.length * 16 + 8 * ((pd.take j).map (fun e => e.2.length)).sum)
        (pd.get ⟨j, hj⟩).2.length = Except.ok (pd.get ⟨j, hj⟩).2 := by
  obtain ⟨epre, epost, hsplit, hlen⟩ := trigramEdgeBytes_split pd j hj
  have hA : trigramHeaderBytes pd.length topN ++ trigramIndexBytes pd 0 ++ trigramEdgeBytes pd =
      (trigramHeaderBytes pd.length topN ++ trigramIndexBytes pd 0 ++ epre) ++
        (entryEdgeBytes (pd.get ⟨j, hj⟩).2 ++ epost) := by
    rw [hsplit]
    simp [List.append_assoc]
  rw [hA]
  exact readEdgeRecs_entry _ _ _ _
    (by simp [trigramHeaderBytes_length, trigramIndexBytes_length, hlen]; omega) hb

theorem trigram_numPairs_read (pd : List ((Nat × Nat) × List (Nat × Nat))) (topN : Nat)
    (hN : pd.length < 4294967296) :
    readU32 (trigramHeaderBytes pd.length topN ++ trigramIndexBytes pd 0 ++ trigramEdgeBytes pd) 8 =
      Except.ok pd.length := by
  have hA : trigramHeaderBytes pd.length topN ++ trigramIndexBytes pd 0 ++ trigramEdgeBytes pd =
      (le32 1414678339 ++ le32 1) ++
        (le32 pd.length ++ (le32 topN ++ (List.replicate 16 0 ++
          (trigramIndexBytes pd 0 ++ trigramEdgeBytes pd)))) := by
    simp [trigramHeaderBytes, List.append_assoc]
  rw [hA]
  exact readU32_here _ _ _ _ (by simp [le32_length]) hN

/-- Correctness of the `lookup_trigram` binary-search loop: on a buffer
whose pair-index entries decode to a strictly `(w1, w2)`-sorted key table
containing the target at position `t`, the loop lands on `t`'s equal branch. -/
theorem trigramSearchGo_finds (data : List Nat) (w1 w2 : Nat) (vocab : List String)
    (numPairs : Nat) (keys : Nat → Nat × Nat)
    (hread : ∀ m, m < numPairs →
      readU32 data (32 + m * 16) = Except.ok (keys m).1 ∧
      readU32 data (32 + m * 16 + 4) = Except.ok (keys m).2)
    (hsorted : ∀ m1 m2, m1 < m2 → m2 < numPairs → pairLt (keys m1) (keys m2))
    (t : Nat) (ht : t < numPairs) (hkt : keys t = (w1, w2)) :
    ∀ (fuel low high : Nat), low ≤ t → t < high → high ≤ numPairs → high - low ≤ fuel →
      trigramSearchGo data w1 w2 vocab numPairs fuel low high =
        (do
          let edgesStart ← readU32 data (32 + t * 16 + 8)
          let len ← readU16 data (32 + t * 16 + 12)
          let res ← trigramEdgeLoop data vocab (32 + numPairs * 16 + edgesStart) len
          Except.ok (some res)) := by
  intro fuel
  induction fuel with
  | zero => intro low high h1 h2 h3 h4; omega
  | succ fuel ih =>
    intro low high hlowt hthigh hhighN hfuel
    have hlh : low < high := by omega
    have hmidlow : low ≤ low + (high - low) / 2 := by omega
    have hmidhigh : low + (high - low) / 2 < high := by omega
    have hmidN : low + (high - low) / 2 < numPairs := by omega
    obtain ⟨hr1, hr2⟩ := hread (low + (high - low) / 2) hmidN
    simp only [trigramSearchGo]
    rw [if_pos hlh]
    rw [hr1, hr2]
    simp only [Except.bind, bind]
    rcases Nat.lt_trichotomy (low + (high - low) / 2) t with hmt | hmt | hmt
    · have hlt : pairLt (keys (low + (high - low) / 2)) (w1, w2) := by
        rw [← hkt]; exact hsorted _ t hmt ht
      rw [if_pos (by simpa [pairLt] using hlt)]
      exact ih (low + (high - low) / 2 + 1) high (by omega) hthigh hhighN (by omega)
    · rw [hmt, hkt]
      rw [if_neg (by omega), if_pos ⟨rfl, rfl⟩]
    · have hlt : pairLt (w1, w2) (keys (low + (high - low) / 2)) := by
        rw [← hkt]; exact hsorted t _ hmt hmidN
      have hne1 : ¬((keys (low + (high - low) / 2)).1 < w1 ∨
          ((keys (low + (high - low) / 2)).1 = w1 ∧ (keys (low + (high - low) / 2)).2 < w2)) := by
        simp only [pairLt] at hlt
        omega
      have hne2 : ¬((keys (low + (high - low) / 2)).1 = w1 ∧
          (keys (low + (high - low) / 2)).2 = w2) := by
        simp only [pairLt] at hlt
        omega
      rw [if_neg hne1, if_neg hne2]
      exact ih low (low + (high - low) / 2) hlowt hmt (by omega) (by omega)

/-! ### C6: the chain walk as a fold over the window list -/

theorem chainLine_cons {σ : Type} (f : σ → Nat × Nat × Nat → σ)
    (st : (Option Nat × Option Nat) × σ) (tok : Option Nat) (rest : List (Option Nat)) :
    chainLine f st (tok :: rest) = chainLine f (chainStep f st tok) rest := rfl

theorem chainLine_collect_start :
    ∀ (line : List (Option Nat)) (ch : Option Nat × Option Nat) (l0 : List (Nat × Nat × Nat)),
      chainLine (fun l t => l ++ [t]) (ch, l0) line =
        ((chainLine (fun l t => l ++ [t]) (ch, []) line).1,
          l0 ++ (chainLine (fun l t => l ++ [t]) (ch, []) line).2) := by
  intro line
  induction line with
  | nil => intro ch l0; simp [chainLine]
  | cons tok rest ih =>
    intro ch l0
    obtain ⟨pp, p⟩ := ch
    rw [chainLine_cons, chainLine_cons]
    cases tok with
    | none =>
      show chainLine _ ((none, none), l0) rest = _
      exact ih (none, none) l0
    | some id =>
      cases pp with
      | none =>
        show chainLine _ ((p, some id), l0) rest = _
        exact ih (p, some id) l0
      | some a =>
        cases p with
        | none =>
          show chainLine _ ((none, some id), l0) rest = _
          exact ih (none, some id) l0
        | some b =>
          show chainLine _ ((some b, some id), l0 ++ [(a, b, id)]) rest =
            ((chainLine _ ((some b, some id), [] ++ [(a, b, id)]) rest).1,
              l0 ++ (chainLine _ ((some b, some id), [] ++ [(a, b, id)]) rest).2)
          rw [ih (some b, some id) (l0 ++ [(a, b, id)]), ih (some b, some id) ([] ++ [(a, b, id)])]
          simp

theorem chainLine_foldl {σ : Type} (f : σ → Nat × Nat × Nat → σ) :
    ∀ (line : List (Option Nat)) (ch : Option Nat × Option Nat) (s : σ),
      chainLine f (ch, s) line =
        ((chainLine (fun l t => l ++ [t]) (ch, []) line).1,
          List.foldl f s ((chainLine (fun l t => l ++ [t]) (ch, []) line).2)) := by
  intro line
  induction line with
  | nil => intro ch s; simp [chainLine]
  | cons tok rest ih =>
    intro ch s
    obtain ⟨pp, p⟩ := ch
    rw [chainLine_cons, chainLine_cons]
    cases tok with
    | none =>
      show chainLine f ((none, none), s) rest = _
      exact ih (none, none) s
    | some id =>
      cases pp with
      | none =>
        show chainLine f ((p, some id), s) rest = _
        exact ih (p, some id) s
      | some a =>
        cases p with
        | none =>
          show chainLine f ((none, some id), s) rest = _
          exact ih (none, some id) s
        | some b =>
          show chainLine f ((some b, some id), f s (a, b, id)) rest =
            ((chainLine _ ((some b, some id), [] ++ [(a, b, id)]) rest).1,
              List.foldl f s ((chainLine _ ((some b, some id), [] ++ [(a, b, id)]) rest).2))
          rw [ih (some b, some id) (f s (a, b, id)),
            chainLine_collect_start rest (some b, some id) ([] ++ [(a, b, id)])]
          simp

theorem chainCorpus_collect_start :
    ∀ (corpus : Corpus) (l0 : List (Nat × Nat × Nat)),
      chainCorpus (fun l t => l ++ [t]) l0 corpus = l0 ++ triplesOf corpus := by
  intro corpus
  induction corpus with
  | nil => intro l0; simp [chainCorpus, triplesOf]
  | cons line rest ih =>
    intro l0
    show chainCorpus (fun l t => l ++ [t])
        ((chainLine (fun l t => l ++ [t]) ((none, none), l0) line).2) rest = _
    rw [chainLine_collect_start line (none, none) l0]
    rw [ih]
    have h2 : triplesOf (line :: rest) =
        (chainLine (fun l t => l ++ [t]) ((none, none), []) line).2 ++ triplesOf rest := by
      show chainCorpus (fun l t => l ++ [t])
          ((chainLine (fun l t => l ++ [t]) ((none, none), []) line).2) rest = _
      rw [ih]
    rw [h2, List.append_assoc]

theorem chainCorpus_foldl {σ : Type} (f : σ → Nat × Nat × Nat → σ) :
    ∀ (corpus : Corpus) (s : σ),
      chainCorpus f s corpus = List.foldl f s (triplesOf corpus) := by
  intro corpus
  induction corpus with
  | nil => intro s; simp [chainCorpus, triplesOf]
  | cons line rest ih =>
    intro s
    show chainCorpus f ((chainLine f ((none, none), s) line).2) rest = _
    rw [chainLine_foldl f line (none, none) s]
    rw [ih]
    have hsplit : triplesOf (line :: rest) =
        (chainLine (fun l t => l ++ [t]) ((none, none), []) line).2 ++ triplesOf rest := by
      show chainCorpus (fun l t => l ++ [t])
          ((chainLine (fun l t => l ++ [t]) ((none, none), []) line).2) rest = _
      rw [chainCorpus_collect_start]
    rw [hsplit, List.foldl_append]

/-! ### C6: association-list counting facts -/

theorem bumpAssoc_ne_nil {κ : Type} [DecidableEq κ] (m : List (κ × Nat)) (k : κ) :
    bumpAssoc m k ≠ [] := by
  cases m with
  | nil => simp [bumpAssoc]
  | cons e rest =>
    obtain ⟨k0, c⟩ := e
    by_cases h : k0 = k <;> simp [bumpAssoc, h]

theorem bumpAssoc_keys {κ : Type} [DecidableEq κ] :
    ∀ (m : List (κ × Nat)) (k : κ),
      (bumpAssoc m k).map Prod.fst =
        if k ∈ m.map Prod.fst then m.map Prod.fst else m.map Prod.fst ++ [k] := by
  intro m
  induction m with
  | nil => intro k; simp [bumpAssoc]
  | cons e rest ih =>
    intro k
    obtain ⟨k0, c⟩ := e
    by_cases h : k0 = k
    · subst h
      simp [bumpAssoc]
    · have hne : ¬(k = k0) := fun hk => h hk.symm
      by_cases hm : k ∈ rest.map Prod.fst
      · simp [bumpAssoc, h, ih, hm, hne]
      · simp [bumpAssoc, h, ih, hm, hne]

theorem bumpAssoc_counts_pos {κ : Type} [DecidableEq κ] :
    ∀ (m : List (κ × Nat)) (k : κ), (∀ e ∈ m, 1 ≤ e.2) → ∀ e ∈ bumpAssoc m k, 1 ≤ e.2 := by
  intro m
  induction m with
  | nil => intro k _ e he; simp [bumpAssoc] at he; simp [he]
  | cons e0 rest ih =>
    intro k hm e he
    obtain ⟨k0, c⟩ := e0
    by_cases h : k0 = k
    · simp only [bumpAssoc, if_pos h] at he
      rcases List.mem_cons.mp he with h1 | h1
      · subst h1; simp
      · exact hm e (List.mem_cons_of_mem _ h1)
    · simp only [bumpAssoc, if_neg h] at he
      rcases List.mem_cons.mp he with h1 | h1
      · subst h1; exact hm (k0, c) (List.mem_cons_self _ _)
      · exact ih k (fun x hx => hm x (List.mem_cons_of_mem _ hx)) e h1

theorem foldl_bumpAssoc_ne_nil {κ : Type} [DecidableEq κ] :
    ∀ (l : List κ) (m : List (κ × Nat)), m ≠ [] → List.foldl bumpAssoc m l ≠ [] := by
  intro l
  induction l with
  | nil => intro m hm; simpa
  | cons x xs ih => intro m _; exact ih (bumpAssoc m x) (bumpAssoc_ne_nil m x)

theorem countOcc_ne_nil {κ : Type} [DecidableEq κ] (l : List κ) (h : l ≠ []) :
    countOcc l ≠ [] := by
  cases l with
  | nil => exact absurd rfl h
  | cons x xs =>
    show List.foldl bumpAssoc (bumpAssoc [] x) xs ≠ []
    exact foldl_bumpAssoc_ne_nil xs _ (bumpAssoc_ne_nil [] x)

theorem foldl_bumpAssoc_keys_mem {κ : Type} [DecidableEq κ] :
    ∀ (l : List κ) (m : List (κ × Nat)) (k : κ),
      (k ∈ (List.foldl bumpAssoc m l).map Prod.fst ↔ k ∈ m.map Prod.fst ∨ k ∈ l) := by
  intro l
  induction l with
  | nil => intro m k; simp
  | cons x xs ih =>
    intro m k
    rw [List.foldl_cons, ih]
    rw [bumpAssoc_keys]
    by_cases hx : x ∈ m.map Prod.fst
    · rw [if_pos hx]
      constructor
      · rintro (h | h)
        · exact Or.inl h
        · exact Or.inr (List.mem_cons_of_mem _ h)
      · rintro (h | h)
        · exact Or.inl h
        · rcases List.mem_cons.mp h with h1 | h1
          · exact Or.inl (h1 ▸ hx)
          · exact Or.inr h1
    · rw [if_neg hx]
      simp only [List.mem_append, List.mem_singleton, List.mem_cons]
      tauto

theorem countOcc_keys_mem {κ : Type} [DecidableEq κ] (l : List κ) (k : κ) :
    k ∈ (countOcc l).map Prod.fst ↔ k ∈ l := by
  rw [countOcc, foldl_bumpAssoc_keys_mem]
  simp

theorem foldl_bumpAssoc_keys_nodup {κ : Type} [DecidableEq κ] :
    ∀ (l : List κ) (m : List (κ × Nat)),
      (m.map Prod.fst).Nodup → ((List.foldl bumpAssoc m l).map Prod.fst).Nodup := by
  intro l
  induction l with
  | nil => intro m hm; simpa
  | cons x xs ih =>
    intro m hm
    rw [List.foldl_cons]
    apply ih
    rw [bumpAssoc_keys]
    by_cases hx : x ∈ m.map Prod.fst
    · rwa [if_pos hx]
    · rw [if_neg hx]
      simp [List.nodup_append, hm, hx]

theorem countOcc_keys_nodup {κ : Type} [DecidableEq κ] (l : List κ) :
    ((countOcc l).map Prod.fst).Nodup :=
  foldl_bumpAssoc_keys_nodup l [] (by simp)

theorem foldl_bumpAssoc_counts_pos {κ : Type} [DecidableEq κ] :
    ∀ (l : List κ) (m : List (κ × Nat)), (∀ e ∈ m, 1 ≤ e.2) →
      ∀ e ∈ List.foldl bumpAssoc m l, 1 ≤ e.2 := by
  intro l
  induction l with
  | nil => intro m hm; simp only [List.foldl_nil]; exact hm
  | cons x xs ih => intro m hm; exact ih _ (bumpAssoc_counts_pos m x hm)

theorem countOcc_counts_pos {κ : Type} [DecidableEq κ] (l : List κ) :
    ∀ e ∈ countOcc l, 1 ≤ e.2 :=
  foldl_bumpAssoc_counts_pos l [] (by simp)

/-! ### C6: the dense pair-index map -/

theorem topPairsIdx_some :
    ∀ (sel : List ((Nat × Nat) × Nat)) (pr : Nat × Nat) (j : Nat),
      topPairsIdx sel pr = some j →
      ∃ hj : j < sel.length, (sel.get ⟨j, hj⟩).1 = pr := by
  intro sel
  induction sel with
  | nil => intro pr j h; simp [topPairsIdx] at h
  | cons e rest ih =>
    intro pr j h
    rw [topPairsIdx, List.findIdx?_cons] at h
    by_cases hp : e.1 == pr
    · rw [if_pos hp] at h
      obtain rfl : j = 0 := by simpa using h.symm
      exact ⟨by simp, by simpa using hp⟩
    · rw [if_neg hp, List.findIdx?_succ] at h
      obtain ⟨j0, hj0, rfl⟩ : ∃ j0, rest.findIdx? (fun x => x.1 == pr) = some j0 ∧ j = j0 + 1 := by
        cases hh : rest.findIdx? (fun x => x.1 == pr) with
        | none => rw [hh] at h; simp at h
        | some j0 => rw [hh] at h; simp at h; exact ⟨j0, rfl, h.symm⟩
      obtain ⟨hj, hkey⟩ := ih pr j0 hj0
      exact ⟨by simpa using Nat.succ_lt_succ hj, by simpa using hkey⟩

theorem topPairsIdx_get :
    ∀ (sel : List ((Nat × Nat) × Nat)), (sel.map Prod.fst).Nodup →
      ∀ (j : Nat) (hj : j < sel.length),
        topPairsIdx sel ((sel.get ⟨j, hj⟩).1) = some j := by
  intro sel
  induction sel with
  | nil => intro _ j hj; simp at hj
  | cons e rest ih =>
    intro hnd j hj
    have hnd2 : (rest.map Prod.fst).Nodup := by
      rw [List.map_cons, List.nodup_cons] at hnd
      exact hnd.2
    have hhead : e.1 ∉ rest.map Prod.fst := by
      rw [List.map_cons, List.nodup_cons] at hnd
      exact hnd.1
    cases j with
    | zero =>
      rw [topPairsIdx, List.findIdx?_cons]
      simp
    | succ j =>
      have hj2 : j < rest.length := by simpa using hj
      have hkey : (rest.get ⟨j, hj2⟩).1 ∈ rest.map Prod.fst :=
        List.mem_map_of_mem Prod.fst (rest.get_mem j hj2)
      have hne : ¬(e.1 == ((e :: rest).get ⟨j + 1, hj⟩).1) = true := by
        simp only [List.get_cons_succ, beq_iff_eq]
        intro hcontra
        apply hhead
        rw [hcontra]
        exact hkey
      rw [topPairsIdx, List.findIdx?_cons, if_neg hne, List.findIdx?_succ]
      have := ih hnd2 j hj2
      rw [topPairsIdx] at this
      simp only [List.get_cons_succ]
      rw [this]
      rfl

/-! ### C6: pass 2 as per-pair counting -/

theorem foldl_guard_filterMap {κ T : Type} [DecidableEq κ]
    (q : T → Prop) [DecidablePred q] (g : T → κ) :
    ∀ (ts : List T) (m : List (κ × Nat)),
      List.foldl (fun m t => if q t then bumpAssoc m (g t) else m) m ts =
        List.foldl bumpAssoc m (ts.filterMap (fun t => if q t then some (g t) else none)) := by
  intro ts
  induction ts with
  | nil => intro m; rfl
  | cons t rest ih =>
    intro m
    rw [List.foldl_cons, List.filterMap_cons]
    by_cases hq : q t
    · rw [if_pos hq, if_pos hq, List.foldl_cons]
      exact ih _
    · rw [if_neg hq, if_neg hq]
      exact ih _

theorem foldl_trigramCountsStep_getD (sel : List ((Nat × Nat) × Nat)) :
    ∀ (ts : List (Nat × Nat × Nat)) (ms : List (List (Nat × Nat))) (i : Nat),
      ms.length = sel.length → i < ms.length →
      (List.foldl (trigramCountsStep sel) ms ts).getD i [] =
        List.foldl
          (fun m t => if topPairsIdx sel (t.1, t.2.1) = some i then bumpAssoc m t.2.2 else m)
          (ms.getD i []) ts := by
  intro ts
  induction ts with
  | nil => intro ms i _ _; rfl
  | cons t rest ih =>
    intro ms i hlen hi
    rw [List.foldl_cons, List.foldl_cons]
    cases hidx : topPairsIdx sel (t.1, t.2.1) with
    | none =>
      have hstep : trigramCountsStep sel ms t = ms := by
        rw [trigramCountsStep, hidx]
      rw [hstep, if_neg (by simp [hidx])]
      exact ih ms i hlen hi
    | some j =>
      obtain ⟨hj, _⟩ := topPairsIdx_some sel _ j hidx
      have hjm : j < ms.length := by omega
      have hstep : trigramCountsStep sel ms t =
          ms.set j (bumpAssoc (ms.getD j []) t.2.2) := by
        rw [trigramCountsStep, hidx]
      rw [hstep]
      by_cases hji : j = i
      · subst hji
        rw [if_pos (by simp [hidx])]
        rw [ih _ j (by simpa using hlen) (by simpa using hjm)]
        congr 1
        rw [List.getD_eq_getElem?_getD, List.getElem?_set_self (by simpa using hjm)]
        rfl
      · rw [if_neg (by simp [hidx, hji])]
        rw [ih _ i (by simpa using hlen) (by simpa using hi)]
        congr 1
        rw [List.getD_eq_getElem?_getD, List.getElem?_set_ne hji, ← List.getD_eq_getElem?_getD]

/-! ### C6: pipeline facts -/

theorem pairFreq_eq_countOcc (corpus : Corpus) :
    pairFreq corpus = countOcc (triplePairs corpus) := by
  rw [pairFreq, chainCorpus_foldl, countOcc, triplePairs, List.foldl_map]

theorem selectedPairs_sub_pairFreq (corpus : Corpus) (K : Nat) :
    ∀ e ∈ selectedPairs corpus K, e ∈ pairFreq corpus := by
  intro e he
  rw [selectedPairs] at he
  exact (List.mem_insertionSort countDesc).mp (List.mem_of_mem_take he)

theorem selectedPairs_keys_nodup (corpus : Corpus) (K : Nat) :
    ((selectedPairs corpus K).map Prod.fst).Nodup := by
  have h1 : ((pairFreq corpus).map Prod.fst).Nodup := by
    rw [pairFreq_eq_countOcc]
    exact countOcc_keys_nodup _
  have h2 : (((List.insertionSort countDesc (pairFreq corpus))).map Prod.fst).Nodup :=
    ((List.perm_insertionSort countDesc (pairFreq corpus)).map Prod.fst).symm.nodup h1
  rw [selectedPairs, List.map_take]
  exact (List.take_sublist K _).nodup h2

theorem selected_key_mem_triplePairs (corpus : Corpus) (K : Nat) (pr : Nat × Nat)
    (h : pr ∈ (selectedPairs corpus K).map Prod.fst) : pr ∈ triplePairs corpus := by
  obtain ⟨e, he, hfst⟩ := List.mem_map.mp h
  have : e ∈ pairFreq corpus := selectedPairs_sub_pairFreq corpus K e he
  rw [pairFreq_eq_countOcc] at this
  have : e.1 ∈ (countOcc (triplePairs corpus)).map Prod.fst := List.mem_map_of_mem Prod.fst this
  rw [countOcc_keys_mem] at this
  exact hfst ▸ this

theorem observed_of_triplePair (corpus : Corpus) (pr : Nat × Nat)
    (h : pr ∈ triplePairs corpus) : observedSuccessors corpus pr ≠ [] := by
  obtain ⟨tr, htr, hpr⟩ := List.mem_map.mp h
  have : tr.2.2 ∈ observedSuccessors corpus pr := by
    rw [observedSuccessors]
    exact List.mem_filterMap.mpr ⟨tr, htr, by rw [if_pos hpr]⟩
  intro hnil
  rw [hnil] at this
  exact absurd this (List.not_mem_nil _)

theorem observed_sub_vocab (corpus : Corpus) (pr : Nat × Nat) (vocab : List String)
    (hvocab : ∀ t ∈ triplesOf corpus, t.1 < vocab.length ∧ t.2.1 < vocab.length ∧
      t.2.2 < vocab.length) :
    ∀ id ∈ observedSuccessors corpus pr, id < vocab.length := by
  intro id hid
  rw [observedSuccessors] at hid
  obtain ⟨tr, htr, hval⟩ := List.mem_filterMap.mp hid
  by_cases hpr : (tr.1, tr.2.1) = pr
  · rw [if_pos hpr] at hval
    obtain rfl : tr.2.2 = id := by simpa using hval
    exact (hvocab tr htr).2.2
  · rw [if_neg hpr] at hval
    exact absurd hval (by simp)

theorem triplePair_bounds (corpus : Corpus) (pr : Nat × Nat) (vocab : List String)
    (hvocab : ∀ t ∈ triplesOf corpus, t.1 < vocab.length ∧ t.2.1 < vocab.length ∧
      t.2.2 < vocab.length)
    (h : pr ∈ triplePairs corpus) : pr.1 < vocab.length ∧ pr.2 < vocab.length := by
  obtain ⟨tr, htr, hpr⟩ := List.mem_map.mp h
  obtain ⟨h1, h2, _⟩ := hvocab tr htr
  subst hpr
  exact ⟨h1, h2⟩

theorem trigramCounts_getD_eq (corpus : Corpus) (sel : List ((Nat × Nat) × Nat))
    (hnd : (sel.map Prod.fst).Nodup) (i : Nat) (hi : i < sel.length) :
    (trigramCounts corpus sel).getD i [] =
      countOcc (observedSuccessors corpus ((sel.get ⟨i, hi⟩).1)) := by
  rw [trigramCounts, chainCorpus_foldl]
  rw [foldl_trigramCountsStep_getD sel _ _ i (by simp) (by simpa using hi)]
  have hrep : (List.replicate sel.length ([] : List (Nat × Nat))).getD i [] = [] := by
    rw [List.getD_eq_getElem?_getD]
    simp [List.getElem?_replicate, hi]
  rw [hrep]
  refine (foldl_guard_filterMap (fun t : Nat × Nat × Nat => topPairsIdx sel (t.1, t.2.1) = some i)
      (fun t => t.2.2) (triplesOf corpus) []).trans ?_
  rw [countOcc, observedSuccessors]
  congr 1
  apply List.filterMap_congr
  intro t _
  by_cases hpr : (t.1, t.2.1) = (sel.get ⟨i, hi⟩).1
  · rw [if_pos hpr, if_pos]
    rw [hpr]
    exact topPairsIdx_get sel hnd i hi
  · rw [if_neg hpr, if_neg]
    intro hcontra
    obtain ⟨hj, hkey⟩ := topPairsIdx_some sel _ i hcontra
    exact hpr hkey.symm

/-! ### C6: `pair_data` facts -/

theorem pairEntriesAux_length_le (tc : List (List (Nat × Nat))) (topN : Nat) :
    ∀ (suffix : List ((Nat × Nat) × Nat)) (i0 : Nat),
      (pairEntriesAux tc topN suffix i0).length ≤ suffix.length := by
  intro suffix
  induction suffix with
  | nil => intro i0; simp [pairEntriesAux]
  | cons e rest ih =>
    intro i0
    obtain ⟨pr, c⟩ := e
    by_cases h : tc.getD i0 [] = []
    · rw [pairEntriesAux, if_pos h]
      exact Nat.le_trans (ih (i0 + 1)) (by simp)
    · rw [pairEntriesAux, if_neg h]
      simpa using Nat.succ_le_succ (ih (i0 + 1))

theorem pairEntriesAux_keys_sublist (tc : List (List (Nat × Nat))) (topN : Nat) :
    ∀ (suffix : List ((Nat × Nat) × Nat)) (i0 : Nat),
      List.Sublist ((pairEntriesAux tc topN suffix i0).map Prod.fst) (suffix.map Prod.fst) := by
  intro suffix
  induction suffix with
  | nil => intro i0; simp [pairEntriesAux]
  | cons e rest ih =>
    intro i0
    obtain ⟨pr, c⟩ := e
    by_cases h : tc.getD i0 [] = []
    · rw [pairEntriesAux, if_pos h, List.map_cons]
      exact List.Sublist.cons _ (ih (i0 + 1))
    · rw [pairEntriesAux, if_neg h, List.map_cons, List.map_cons]
      exact List.Sublist.cons₂ _ (ih (i0 + 1))

theorem pairEntriesAux_mem (tc : List (List (Nat × Nat))) (topN : Nat) :
    ∀ (suffix : List ((Nat × Nat) × Nat)) (i0 j : Nat) (hj : j < suffix.length),
      tc.getD (i0 + j) [] ≠ [] →
      ((suffix.get ⟨j, hj⟩).1,
        (List.insertionSort countDesc (tc.getD (i0 + j) [])).take topN) ∈
        pairEntriesAux tc topN suffix i0 := by
  intro suffix
  induction suffix with
  | nil => intro i0 j hj; simp at hj
  | cons e rest ih =>
    intro i0 j hj hne
    obtain ⟨pr, c⟩ := e
    cases j with
    | zero =>
      have h0 : i0 + 0 = i0 := by omega
      rw [h0] at hne ⊢
      rw [pairEntriesAux, if_neg hne]
      exact List.mem_cons_self _ _
    | succ j =>
      have hj2 : j < rest.length := by simpa using hj
      have harith : i0 + (j + 1) = (i0 + 1) + j := by omega
      rw [harith] at hne ⊢
      have hmem := ih (i0 + 1) j hj2 hne
      by_cases h : tc.getD i0 [] = []
      · rw [pairEntriesAux, if_pos h]
        simpa using hmem
      · rw [pairEntriesAux, if_neg h]
        exact List.mem_cons_of_mem _ (by simpa using hmem)

theorem pairEntriesAux_edges (tc : List (List (Nat × Nat))) (topN : Nat) :
    ∀ (suffix : List ((Nat × Nat) × Nat)) (i0 : Nat),
      ∀ ent ∈ pairEntriesAux tc topN suffix i0,
        ∃ i, ¬(tc.getD i [] = []) ∧
          ent.2 = (List.insertionSort countDesc (tc.getD i [])).take topN := by
  intro suffix
  induction suffix with
  | nil => intro i0 ent hent; simp [pairEntriesAux] at hent
  | cons e rest ih =>
    intro i0 ent hent
    obtain ⟨pr, c⟩ := e
    by_cases h : tc.getD i0 [] = []
    · rw [pairEntriesAux, if_pos h] at hent
      exact ih (i0 + 1) ent hent
    · rw [pairEntriesAux, if_neg h] at hent
      rcases List.mem_cons.mp hent with h1 | h1
      · exact ⟨i0, h, by rw [h1]⟩
      · exact ih (i0 + 1) ent h1

theorem pairEntriesAux_edge_len (tc : List (List (Nat × Nat))) (topN : Nat)
    (suffix : List ((Nat × Nat) × Nat)) (i0 : Nat) :
    ∀ ent ∈ pairEntriesAux tc topN suffix i0, ent.2.length ≤ topN := by
  intro ent hent
  obtain ⟨i, _, hlen⟩ := pairEntriesAux_edges tc topN suffix i0 ent hent
  rw [hlen]
  simp [List.length_take]

/-! ### C6: the sorted pair table -/

theorem weightEntry_fst (e : (Nat × Nat) × List (Nat × Nat)) : (weightEntry e).1 = e.1 := rfl

theorem weightEntry_len (e : (Nat × Nat) × List (Nat × Nat)) :
    (weightEntry e).2.length = e.2.length := by
  simp [weightEntry]

theorem sorted_keys_strict (pd : List ((Nat × Nat) × List (Nat × Nat)))
    (hs : List.Sorted entryKeyLe pd) (hnd : (pd.map Prod.fst).Nodup) :
    ∀ (m1 m2 : Nat) (h1 : m1 < pd.length) (h2 : m2 < pd.length), m1 < m2 →
      pairLt (pd.get ⟨m1, h1⟩).1 (pd.get ⟨m2, h2⟩).1 := by
  intro m1 m2 h1 h2 h12
  have hle : entryKeyLe (pd.get ⟨m1, h1⟩) (pd.get ⟨m2, h2⟩) :=
    List.pairwise_iff_get.mp hs ⟨m1, h1⟩ ⟨m2, h2⟩ h12
  have hne : (pd.get ⟨m1, h1⟩).1 ≠ (pd.get ⟨m2, h2⟩).1 := by
    intro hcontra
    have hm1 : m1 < (pd.map Prod.fst).length := by simpa using h1
    have hm2 : m2 < (pd.map Prod.fst).length := by simpa using h2
    have hgm : (pd.map Prod.fst).get ⟨m1, hm1⟩ = (pd.map Prod.fst).get ⟨m2, hm2⟩ := by
      rw [List.get_map, List.get_map]
      exact hcontra
    have := (List.Nodup.get_inj_iff hnd).mp hgm
    simp at this
    omega
  rw [entryKeyLe] at hle
  rw [pairLt]
  rcases hle with h | ⟨hfst, hsnd⟩
  · exact Or.inl h
  · refine Or.inr ⟨hfst, ?_⟩
    rcases Nat.lt_or_ge (pd.get ⟨m1, h1⟩).1.2 (pd.get ⟨m2, h2⟩).1.2 with h | h
    · exact h
    · exfalso
      apply hne
      have : (pd.get ⟨m1, h1⟩).1.2 = (pd.get ⟨m2, h2⟩).1.2 := by omega
      exact Prod.ext hfst this

/-- C6: build/lookup round trip for the trigram cache.  If the ordered pair
`(w1, w2)` was selected among the top `K` pairs during the build, then
`lookup_trigram (w1, w2)` on the written artifact succeeds with a non-empty
suggestion list, every element of which resolves a `next_id` observed after
`(w1, w2)` in the corpus.  The numeric side conditions say only that the
parameters fit the fixed-width fields of the format (`top_n ≥ 1`, `len`
fits `u16`, offsets and `num_pairs` fit `u32`) and that every token id of
the corpus is a valid index into the caller-supplied vocabulary. -/
theorem c6_trigram_build_lookup_roundtrip
    (corpus : Corpus) (K topN : Nat) (vocab : List String) (w1 w2 : Nat)
    (hsel : (w1, w2) ∈ (selectedPairs corpus K).map Prod.fst)
    (htop : 1 ≤ topN) (htop16 : topN < 65536)
    (hKoff : K * topN * 8 < 4294967296) (hK : K < 4294967296)
    (hvlen : vocab.length ≤ 4294967296)
    (hvocab : ∀ t ∈ triplesOf corpus, t.1 < vocab.length ∧ t.2.1 < vocab.length ∧
      t.2.2 < vocab.length) :
    ∃ res, lookupTrigram (trigramArtifact corpus K topN) w1 w2 vocab = Except.ok (some res) ∧
      res ≠ [] ∧
      ∀ r ∈ res, ∃ id, id ∈ observedSuccessors corpus (w1, w2) ∧ vocab[id]? = some r.1 := by
  have hnd : ((selectedPairs corpus K).map Prod.fst).Nodup := selectedPairs_keys_nodup corpus K
  obtain ⟨esel, hesel, hkeysel⟩ := List.mem_map.mp hsel
  obtain ⟨⟨i, hi⟩, hgi⟩ := List.mem_iff_get.mp hesel
  have key_i : ((selectedPairs corpus K).get ⟨i, hi⟩).1 = (w1, w2) := by rw [hgi]; exact hkeysel
  -- the collected counts for the selected pair
  have hcounts : (trigramCounts corpus (selectedPairs corpus K)).getD i [] =
      countOcc (observedSuccessors corpus (w1, w2)) := by
    rw [trigramCounts_getD_eq corpus _ hnd i hi, key_i]
  have hobs_ne : observedSuccessors corpus (w1, w2) ≠ [] :=
    observed_of_triplePair corpus _ (selected_key_mem_triplePairs corpus K _ hsel)
  have hcounts_ne : (trigramCounts corpus (selectedPairs corpus K)).getD i [] ≠ [] := by
    rw [hcounts]
    exact countOcc_ne_nil _ hobs_ne
  -- the pair's entry in pair_data
  have hmem_pe : (((selectedPairs corpus K).get ⟨i, hi⟩).1,
      (List.insertionSort countDesc
        ((trigramCounts corpus (selectedPairs corpus K)).getD i [])).take topN) ∈
      pairEntries corpus K topN := by
    have h0 : (0 : Nat) + i = i := by omega
    have := pairEntriesAux_mem (trigramCounts corpus (selectedPairs corpus K)) topN
      (selectedPairs corpus K) 0 i hi (by rw [h0]; exact hcounts_ne)
    rw [h0] at this
    exact this
  have hmem_pdS : weightEntry (((selectedPairs corpus K).get ⟨i, hi⟩).1,
      (List.insertionSort countDesc
        ((trigramCounts corpus (selectedPairs corpus K)).getD i [])).take topN) ∈
      List.insertionSort entryKeyLe (pairData corpus K topN) :=
    (List.mem_insertionSort entryKeyLe).mpr (List.mem_map_of_mem weightEntry hmem_pe)
  obtain ⟨⟨t, ht⟩, hgt⟩ := List.mem_iff_get.mp hmem_pdS
  -- facts about an arbitrary entry of the sorted pair table
  have hentry_facts : ∀ e ∈ List.insertionSort entryKeyLe (pairData corpus K topN),
      e.1 ∈ (selectedPairs corpus K).map Prod.fst ∧ e.2.length ≤ topN ∧
      ∀ r ∈ e.2, r.2 ≤ 65535 := by
    intro e he
    have he2 : e ∈ pairData corpus K topN := (List.mem_insertionSort entryKeyLe).mp he
    obtain ⟨pe, hpe, hpe2⟩ := List.mem_map.mp he2
    refine ⟨?_, ?_, ?_⟩
    · rw [← hpe2, weightEntry_fst]
      exact (pairEntriesAux_keys_sublist _ _ _ _).subset (List.mem_map_of_mem Prod.fst hpe)
    · rw [← hpe2, weightEntry_len]
      exact pairEntriesAux_edge_len _ _ _ _ pe hpe
    · intro r hr
      rw [← hpe2] at hr
      simp only [weightEntry, List.mem_map] at hr
      obtain ⟨x, _, hx2⟩ := hr
      rw [← hx2]
      exact quantize_weight_le _ _
  have hlenK : (List.insertionSort entryKeyLe (pairData corpus K topN)).length ≤ K := by
    rw [List.length_insertionSort, pairData, List.length_map]
    exact Nat.le_trans (pairEntriesAux_length_le _ _ _ _)
      (Nat.le_trans (List.length_take_le _ _) (Nat.le_refl _))
  have hsum_le : ∀ m, m ≤ (List.insertionSort entryKeyLe (pairData corpus K topN)).length →
      (((List.insertionSort entryKeyLe (pairData corpus K topN)).take m).map
        (fun e => e.2.length)).sum ≤ K * topN := by
    intro m hm
    have hbound : ∀ x ∈ (((List.insertionSort entryKeyLe (pairData corpus K topN)).take m).map
        (fun e => e.2.length)), x ≤ topN := by
      intro x hx
      obtain ⟨e, he, hex⟩ := List.mem_map.mp hx
      rw [← hex]
      exact (hentry_facts e (List.mem_of_mem_take he)).2.1
    calc (((List.insertionSort entryKeyLe (pairData corpus K topN)).take m).map
          (fun e => e.2.length)).sum
        ≤ (((List.insertionSort entryKeyLe (pairData corpus K topN)).take m).map
          (fun e => e.2.length)).length * topN := by
          simpa using List.sum_le_card_nsmul _ topN hbound
      _ ≤ K * topN := by
          apply Nat.mul_le_mul_right
          simp only [List.length_map]
          exact Nat.le_trans (List.length_take_le _ _) (Nat.le_trans hm hlenK)
  have hbounds : ∀ (m : Nat) (hm : m < (List.insertionSort entryKeyLe
      (pairData corpus K topN)).length),
      ((List.insertionSort entryKeyLe (pairData corpus K topN)).get ⟨m, hm⟩).1.1 < 4294967296 ∧
      ((List.insertionSort entryKeyLe (pairData corpus K topN)).get ⟨m, hm⟩).1.2 < 4294967296 ∧
      8 * ((((List.insertionSort entryKeyLe (pairData corpus K topN)).take m).map
        (fun e => e.2.length)).sum) < 4294967296 ∧
      ((List.insertionSort entryKeyLe (pairData corpus K topN)).get ⟨m, hm⟩).2.length < 65536 := by
    intro m hm
    have hf := hentry_facts _ (List.get_mem _ m hm)
    obtain ⟨hkb1, hkb2⟩ := triplePair_bounds corpus _ vocab hvocab
      (selected_key_mem_triplePairs corpus K _ hf.1)
    refine ⟨by omega, by omega, ?_, by omega⟩
    have := hsum_le m (Nat.le_of_lt hm)
    omega
  have hsorted_pdS : List.Sorted entryKeyLe
      (List.insertionSort entryKeyLe (pairData corpus K topN)) :=
    List.sorted_insertionSort entryKeyLe _
  have hnd_pdS : ((List.insertionSort entryKeyLe (pairData corpus K topN)).map Prod.fst).Nodup := by
    have hperm : List.Perm
        ((List.insertionSort entryKeyLe (pairData corpus K topN)).map Prod.fst)
        ((pairData corpus K topN).map Prod.fst) :=
      (List.perm_insertionSort entryKeyLe _).map Prod.fst
    apply hperm.symm.nodup
    rw [pairData, List.map_map]
    have heq : (pairEntries corpus K topN).map (Prod.fst ∘ weightEntry) =
        (pairEntries corpus K topN).map Prod.fst :=
      List.map_congr_left (fun e _ => weightEntry_fst e)
    rw [heq]
    exact List.Sublist.nodup (pairEntriesAux_keys_sublist _ _ _ _) hnd
  have hstrict := sorted_keys_strict _ hsorted_pdS hnd_pdS
  have hNbound : (List.insertionSort entryKeyLe (pairData corpus K topN)).length < 4294967296 := by
    omega
  have hgetD : ∀ (m : Nat) (hm : m < (List.insertionSort entryKeyLe
      (pairData corpus K topN)).length),
      (List.insertionSort entryKeyLe (pairData corpus K topN)).getD m ((0, 0), []) =
        (List.insertionSort entryKeyLe (pairData corpus K topN)).get ⟨m, hm⟩ := by
    intro m hm
    rw [List.getD_eq_getElem?_getD, List.getElem?_eq_getElem hm]
    rfl
  have hkeyt : (((List.insertionSort entryKeyLe (pairData corpus K topN)).getD t
      ((0, 0), [])).1) = (w1, w2) := by
    rw [hgetD t ht, hgt, weightEntry_fst]
    exact key_i
  have hentryreads := fun (m : Nat) (hm : m < (List.insertionSort entryKeyLe
      (pairData corpus K topN)).length) =>
    trigram_entry_reads (List.insertionSort entryKeyLe (pairData corpus K topN)) topN m hm
      (hbounds m hm).1 (hbounds m hm).2.1 (hbounds m hm).2.2.1 (hbounds m hm).2.2.2
  have hread : ∀ m, m < (List.insertionSort entryKeyLe (pairData corpus K topN)).length →
      readU32 (trigramHeaderBytes (List.insertionSort entryKeyLe
          (pairData corpus K topN)).length topN ++
        trigramIndexBytes (List.insertionSort entryKeyLe (pairData corpus K topN)) 0 ++
        trigramEdgeBytes (List.insertionSort entryKeyLe (pairData corpus K topN)))
        (32 + m * 16) =
        Except.ok (((List.insertionSort entryKeyLe (pairData corpus K topN)).getD m
          ((0, 0), [])).1).1 ∧
      readU32 (trigramHeaderBytes (List.insertionSort entryKeyLe
          (pairData corpus K topN)).length topN ++
        trigramIndexBytes (List.insertionSort entryKeyLe (pairData corpus K topN)) 0 ++
        trigramEdgeBytes (List.insertionSort entryKeyLe (pairData corpus K topN)))
        (32 + m * 16 + 4) =
        Except.ok (((List.insertionSort entryKeyLe (pairData corpus K topN)).getD m
          ((0, 0), [])).1).2 := by
    intro m hm
    rw [hgetD m hm]
    exact ⟨(hentryreads m hm).1, (hentryreads m hm).2.1⟩
  have hsorted_keys : ∀ m1 m2, m1 < m2 →
      m2 < (List.insertionSort entryKeyLe (pairData corpus K topN)).length →
      pairLt (((List.insertionSort entryKeyLe (pairData corpus K topN)).getD m1
          ((0, 0), [])).1)
        (((List.insertionSort entryKeyLe (pairData corpus K topN)).getD m2
          ((0, 0), [])).1) := by
    intro m1 m2 h12 hm2
    have hm1 : m1 < (List.insertionSort entryKeyLe (pairData corpus K topN)).length := by omega
    rw [hgetD m1 hm1, hgetD m2 hm2]
    exact hstrict m1 m2 hm1 hm2 h12
  have hfind := trigramSearchGo_finds
    (trigramHeaderBytes (List.insertionSort entryKeyLe (pairData corpus K topN)).length topN ++
      trigramIndexBytes (List.insertionSort entryKeyLe (pairData corpus K topN)) 0 ++
      trigramEdgeBytes (List.insertionSort entryKeyLe (pairData corpus K topN)))
    w1 w2 vocab
    (List.insertionSort entryKeyLe (pairData corpus K topN)).length
    (fun m => ((List.insertionSort entryKeyLe (pairData corpus K topN)).getD m ((0, 0), [])).1)
    hread hsorted_keys t ht hkeyt
    ((List.insertionSort entryKeyLe (pairData corpus K topN)).length - 0) 0
    (List.insertionSort entryKeyLe (pairData corpus K topN)).length
    (Nat.zero_le t) ht (Nat.le_refl _) (Nat.le_refl _)
  -- facts about the found entry's records
  have hids : ∀ r ∈ ((List.insertionSort entryKeyLe (pairData corpus K topN)).get ⟨t, ht⟩).2,
      r.1 ∈ observedSuccessors corpus (w1, w2) := by
    rw [hgt]
    intro r hr
    simp only [weightEntry, List.mem_map] at hr
    obtain ⟨x, hx, hxr⟩ := hr
    have hx2 : x ∈ (trigramCounts corpus (selectedPairs corpus K)).getD i [] :=
      (List.mem_insertionSort countDesc).mp (List.mem_of_mem_take hx)
    rw [hcounts] at hx2
    have : x.1 ∈ (countOcc (observedSuccessors corpus (w1, w2))).map Prod.fst :=
      List.mem_map_of_mem Prod.fst hx2
    rw [countOcc_keys_mem] at this
    rw [← hxr]
    exact this
  have hrecbounds : ∀ r ∈ ((List.insertionSort entryKeyLe (pairData corpus K topN)).get
      ⟨t, ht⟩).2, r.1 < 4294967296 ∧ r.2 < 65536 := by
    intro r hr
    have hw := (hentry_facts _ (List.get_mem _ t ht)).2.2 r hr
    have hid := observed_sub_vocab corpus (w1, w2) vocab hvocab r.1 (hids r hr)
    exact ⟨by omega, by omega⟩
  have hedgeread := trigram_edges_read (List.insertionSort entryKeyLe (pairData corpus K topN))
    topN t ht hrecbounds
  -- the suggestion list
  refine ⟨(((List.insertionSort entryKeyLe (pairData corpus K topN)).get ⟨t, ht⟩).2).filterMap
    (vocabResolve vocab), ?_, ?_, ?_⟩
  · show (do
      let numPairs ← readU32 (trigramArtifact corpus K topN) 8
      trigramSearch (trigramArtifact corpus K topN) w1 w2 vocab numPairs 0 numPairs) = _
    have hart : trigramArtifact corpus K topN =
        trigramHeaderBytes (List.insertionSort entryKeyLe (pairData corpus K topN)).length topN ++
          trigramIndexBytes (List.insertionSort entryKeyLe (pairData corpus K topN)) 0 ++
          trigramEdgeBytes (List.insertionSort entryKeyLe (pairData corpus K topN)) := rfl
    rw [hart, trigram_numPairs_read _ topN hNbound]
    simp only [Except.bind, bind]
    rw [trigramSearch, hfind]
    rw [(hentryreads t ht).2.2.1]
    simp only [Except.bind, bind]
    rw [(hentryreads t ht).2.2.2]
    simp only [Except.bind, bind]
    rw [trigramEdgeLoop_eq_filterMap, hedgeread]
    rfl
  · have hlenrec : 1 ≤ ((List.insertionSort entryKeyLe (pairData corpus K topN)).get
        ⟨t, ht⟩).2.length := by
      rw [hgt, weightEntry_len]
      rw [List.length_take, List.length_insertionSort]
      have : (trigramCounts corpus (selectedPairs corpus K)).getD i [] ≠ [] := hcounts_ne
      have hpos : 0 < ((trigramCounts corpus (selectedPairs corpus K)).getD i []).length :=
        List.length_pos.mpr this
      omega
    cases hrec : ((List.insertionSort entryKeyLe (pairData corpus K topN)).get ⟨t, ht⟩).2 with
    | nil => rw [hrec] at hlenrec; simp at hlenrec
    | cons r0 rrest =>
      have hr0 : r0 ∈ ((List.insertionSort entryKeyLe (pairData corpus K topN)).get
          ⟨t, ht⟩).2 := by
        rw [hrec]
        exact List.mem_cons_self _ _
      have hr0v : r0.1 < vocab.length :=
        observed_sub_vocab corpus (w1, w2) vocab hvocab r0.1 (hids r0 hr0)
      rw [List.filterMap_cons]
      have : vocabResolve vocab r0 = some (vocab.get ⟨r0.1, hr0v⟩, r0.2) := by
        rw [vocabResolve, List.getElem?_eq_getElem hr0v]
        rfl
      rw [this]
      simp
  · intro r hr
    obtain ⟨rec, hrec, hresolve⟩ := List.mem_filterMap.mp hr
    rw [vocabResolve] at hresolve
    obtain ⟨s, hs, hsr⟩ := Option.map_eq_some'.mp hresolve
    refine ⟨rec.1, hids rec hrec, ?_⟩
    rw [hs, ← hsr]

/-- Witness for `c6_trigram_build_lookup_roundtrip`: on the one-line corpus
`a b c` (ids 0 1 2) with `K = 5`, `top_n = 10` and vocabulary
`["a", "b", "c"]`, the pair `(0, 1)` is selected and every hypothesis holds
by computation. -/
theorem c6_trigram_build_lookup_roundtrip_witness :
    ((0, 1) ∈ (selectedPairs exCorpus 5).map Prod.fst) ∧
    (∃ res, lookupTrigram (trigramArtifact exCorpus 5 10) 0 1 ["a", "b", "c"] =
        Except.ok (some res) ∧ res ≠ [] ∧
      ∀ r ∈ res, ∃ id, id ∈ observedSuccessors exCorpus (0, 1) ∧
        ["a", "b", "c"][id]? = some r.1) :=
  ⟨by decide,
    c6_trigram_build_lookup_roundtrip exCorpus 5 10 ["a", "b", "c"] 0 1 (by decide)
      (by decide) (by decide) (by decide) (by decide) (by decide) (by decide)⟩

/-- Witness for `c4_validator_exit_zero`: the general exit-code fact applied
to the concrete all-zero artifact, its hypothesis discharged by
computation. -/
theorem c4_validator_exit_zero_witness :
    validateBigramRun (List.replicate 32 0) [] = Except.ok (false, 0) ∧ (0 : Nat) = 0 :=
  ⟨c4_validator_exit_zero.1,
    c4_validator_exit_zero.2 (List.replicate 32 0) [] false 0 rfl⟩
